import Mathlib

/-!
Shallow embedding of the go-graph library (directed graph container, builder,
Dijkstra / A* / Bellman-Ford shortest paths, DFS traversal, connected
components) and proofs about the claims of its specification.

Conventions of the embedding:
* Go pointers `*Vertex` into the graph's vertex array are represented by the
  vertex's array index (`Nat`); pointer equality becomes index equality.
* The generic identifier type `I` is instantiated with `Int`, the generic
  cost type `C` with `Int` (Go `int` on a 64-bit platform); `maxCost` is the
  concrete value `assignMaxNumber` produces for that type, 2^63 - 1.  None of
  the concrete runs below performs arithmetic on `maxCost`, so unbounded `Int`
  arithmetic coincides with Go's wrapping arithmetic on every run considered.
* Go slices become `List`s; the `map[I]int` becomes an association list that
  is only ever extended with fresh keys, so lookup agrees with Go map lookup.
* Custom vertex/edge payload data (`V`, `E`) is carried nowhere: no claim
  mentions payloads, and dropping them changes no control flow.
* Loops that are not structurally bounded (the Dijkstra/A* main loop and the
  recursive connected-components DFS) take an explicit fuel argument; fuel
  exhaustion is an extra `none`/empty result that is proved (or computed)
  away wherever a claim depends on it.
-/

namespace GoGraph

/-! ### List helpers (positional access used to mirror Go slice indexing) -/

/-- Read a list element at a position, with a default for out-of-range. -/
def getL (l : List Nat) (i : Nat) : Nat := l.getD i 0

/-- Replace the element at position `i` (no-op when out of range),
mirroring a Go slice element assignment. -/
def setL {α : Type} : List α → Nat → α → List α
  | [], _, _ => []
  | _ :: rest, 0, a => a :: rest
  | b :: rest, i + 1, a => b :: setL rest i a

/-- Update the element at position `i` by a function (no-op out of range). -/
def updL {α : Type} : List α → Nat → (α → α) → List α
  | [], _, _ => []
  | b :: rest, 0, f => f b :: rest
  | b :: rest, i + 1, f => b :: updL rest i f

/-- Swap the elements at positions `i` and `j`, mirroring `h.Swap(i, j)`. -/
def swapL (l : List Nat) (i j : Nat) : List Nat :=
  setL (setL l i (getL l j)) j (getL l i)

/-! ### The graph data model (vertex.go, edge.go, graph.go) -/

/-- `Edge[I, C]`: cost, target vertex (a pointer in Go, an index here), and
the index into the graph's custom edge data array. -/
structure Edge where
  cost : Int
  targetVertex : Nat
  customDataIndex : Nat
  deriving Repr, DecidableEq

/-- `Vertex[I, C]`: identifier, index into the custom vertex data array, and
the list of outgoing edges in insertion order. -/
structure Vertex where
  id : Int
  customDataIndex : Nat
  edges : List Edge
  deriving Repr, DecidableEq

instance : Inhabited Vertex := ⟨{ id := 0, customDataIndex := 0, edges := [] }⟩

/-- `Graph[I, C, V, E]`: vertex array, identifier-to-index map (an
association list here), and the two edge counters. -/
structure Graph where
  vertices : List Vertex
  idToIndex : List (Int × Nat)
  edgeCount : Nat
  biEdgeCount : Nat
  deriving Repr, DecidableEq

/-- Association-list lookup, standing in for Go map lookup. -/
def lookupIdx (m : List (Int × Nat)) (x : Int) : Option Nat :=
  match m with
  | [] => none
  | (k, v) :: rest => if k = x then some v else lookupIdx rest x

/-- `Graph.GetVertexCount`. -/
def getVertexCount (g : Graph) : Nat := g.vertices.length

/-- `Graph.GetEdgeCount`. -/
def getEdgeCount (g : Graph) : Nat := g.edgeCount

/-- `Graph.GetBiEdgeCount`. -/
def getBiEdgeCount (g : Graph) : Nat := g.biEdgeCount

/-- `Graph.GetVertexById`: the returned `*Vertex` is represented by the
vertex's index; `none` models the `vertex id not found` error. -/
def getVertexById (g : Graph) (id : Int) : Option Nat :=
  lookupIdx g.idToIndex id

/-- `Graph.GetVertexByIndex`: `none` models the `index out of range` error.
The Go parameter is a signed `int`, hence `Int` here. -/
def getVertexByIndex (g : Graph) (idx : Int) : Option Vertex :=
  if idx < 0 ∨ (g.vertices.length : Int) ≤ idx then none
  else some (g.vertices.getD idx.toNat default)

/-- `vertex.GetCustomDataIndex()` for the vertex stored at index `i`. -/
def cdi (g : Graph) (i : Nat) : Nat :=
  (g.vertices.getD i default).customDataIndex

/-- The identifier of the vertex stored at index `i`. -/
def idOf (g : Graph) (i : Nat) : Int :=
  (g.vertices.getD i default).id

/-- The outgoing edges of the vertex stored at index `i`. -/
def edgesOf (g : Graph) (i : Nat) : List Edge :=
  (g.vertices.getD i default).edges

/-! ### The builder (builder.go) -/

/-- `BasicEdgeDto` without the payload field. -/
structure EdgeDto where
  origin : Int
  target : Int
  cost : Int
  deriving Repr, DecidableEq

/-- `BasicVertexDto` without the payload field. -/
structure VertexDto where
  id : Int
  deriving Repr, DecidableEq

/-- `edgeBulkSize` / `vertexBulkSize`. -/
def bulkSize : Nat := 1000

/-- `Builder[I, C, V, E]`: the linked chains of bulks become lists of lists
whose head is the most recently allocated bulk (`firstEdgeBulk`), each bulk
listing its DTOs in append order. -/
structure Builder where
  edgeBulks : List (List EdgeDto)
  edgeCount : Nat
  freeEdgeSlotCount : Nat
  vertexBulks : List (List VertexDto)
  vertexCount : Nat
  freeVertexSlotCount : Nat
  deriving Repr, DecidableEq

/-- The zero-value `&Builder{}`. -/
def Builder.empty : Builder :=
  { edgeBulks := [], edgeCount := 0, freeEdgeSlotCount := 0,
    vertexBulks := [], vertexCount := 0, freeVertexSlotCount := 0 }

/-- `Builder.AddEdgeDto`. -/
def addEdgeDto (b : Builder) (dto : EdgeDto) : Builder :=
  let b :=
    if b.freeEdgeSlotCount = 0 then
      { b with edgeBulks := [] :: b.edgeBulks, freeEdgeSlotCount := bulkSize }
    else b
  { b with
    edgeBulks :=
      match b.edgeBulks with
      | [] => []
      | first :: rest => (first ++ [dto]) :: rest,
    freeEdgeSlotCount := b.freeEdgeSlotCount - 1,
    edgeCount := b.edgeCount + 1 }

/-- `Builder.AddEdge`. -/
def addEdge (b : Builder) (origin target cost : Int) : Builder :=
  addEdgeDto b { origin := origin, target := target, cost := cost }

/-- `Builder.AddBiEdge`: two directed edges, one in each direction. -/
def addBiEdge (b : Builder) (origin target cost : Int) : Builder :=
  addEdge (addEdge b origin target cost) target origin cost

/-- `Builder.AddVertexDto`. -/
def addVertexDto (b : Builder) (dto : VertexDto) : Builder :=
  let b :=
    if b.freeVertexSlotCount = 0 then
      { b with vertexBulks := [] :: b.vertexBulks,
               freeVertexSlotCount := bulkSize }
    else b
  { b with
    vertexBulks :=
      match b.vertexBulks with
      | [] => []
      | first :: rest => (first ++ [dto]) :: rest,
    freeVertexSlotCount := b.freeVertexSlotCount - 1,
    vertexCount := b.vertexCount + 1 }

/-- `Builder.AddVertex`. -/
def addVertex (b : Builder) (id : Int) : Builder :=
  addVertexDto b { id := id }

/-- The edge DTOs in the order every builder method iterates them:
bulk chain order (most recent bulk first), append order inside a bulk. -/
def builderEdges (b : Builder) : List EdgeDto := b.edgeBulks.flatten

/-- The vertex DTOs in builder iteration order. -/
def builderVertices (b : Builder) : List VertexDto := b.vertexBulks.flatten

/-- The canonical unordered key of `Builder.CountBiEdges`: the pair with the
smaller identifier first. -/
def canonPair (e : EdgeDto) : Int × Int :=
  if e.origin > e.target then (e.target, e.origin) else (e.origin, e.target)

/-- `Builder.CountBiEdges`: the number of distinct canonical pairs (the Go
map's final size). -/
def countBiEdges (b : Builder) : Nat :=
  ((builderEdges b).map canonPair).dedup.length

/-- The identifier occurrence sequence `Builder.predictVertexArrayLength`
feeds into its deduplicating map: each edge contributes origin then target,
then every explicit vertex contributes its identifier. -/
def allIdOccurrences (b : Builder) : List Int :=
  ((builderEdges b).flatMap fun e => [e.origin, e.target])
    ++ (builderVertices b).map VertexDto.id

/-- `Builder.predictVertexArrayLength`: the number of distinct identifiers
appearing as an edge endpoint or an explicit vertex. -/
def predictVertexArrayLength (b : Builder) : Nat :=
  (allIdOccurrences b).dedup.length

/-- Intermediate state of `Builder.BuildDirected`'s fill loops. -/
structure BuildState where
  vertices : List Vertex
  idToIndex : List (Int × Nat)
  vertIdxCnt : Nat
  edgeIdxCnt : Nat
  deriving Repr, DecidableEq

/-- The shared lazy-index-assignment step of `BuildDirected` (the
`if originIdx, exists = g.idToIndex[...]; !exists` blocks): returns the
index assigned to the identifier together with the updated state. -/
def ensureVertex (st : BuildState) (x : Int) : BuildState × Nat :=
  match lookupIdx st.idToIndex x with
  | some i => (st, i)
  | none =>
      ({ st with
          vertices := setL st.vertices st.vertIdxCnt
            { id := x, customDataIndex := st.vertIdxCnt, edges := [] },
          idToIndex := st.idToIndex ++ [(x, st.vertIdxCnt)],
          vertIdxCnt := st.vertIdxCnt + 1 },
        st.vertIdxCnt)

/-- One iteration of `BuildDirected`'s edge pass: assign indices to both
endpoints, then append the compiled edge to the origin's edge list. -/
def buildEdgeStep (st : BuildState) (e : EdgeDto) : BuildState :=
  let (st, originIdx) := ensureVertex st e.origin
  let (st, targetIdx) := ensureVertex st e.target
  { st with
    vertices := updL st.vertices originIdx fun v =>
      { v with edges := v.edges ++
          [{ cost := e.cost, targetVertex := targetIdx,
             customDataIndex := st.edgeIdxCnt }] },
    edgeIdxCnt := st.edgeIdxCnt + 1 }

/-- One iteration of `BuildDirected`'s vertex pass: assign an index if the
identifier has not appeared yet. -/
def buildVertexStep (st : BuildState) (v : VertexDto) : BuildState :=
  (ensureVertex st v.id).1

/-- `Builder.BuildDirected`.  The `countOutgoingEdges` pre-pass only sizes
slice capacities in Go and has no observable effect here. -/
def buildDirected (b : Builder) : Graph :=
  let vertexCount := predictVertexArrayLength b
  let st0 : BuildState :=
    { vertices := List.replicate vertexCount default,
      idToIndex := [], vertIdxCnt := 0, edgeIdxCnt := 0 }
  let st1 := (builderEdges b).foldl buildEdgeStep st0
  let st2 := (builderVertices b).foldl buildVertexStep st1
  { vertices := st2.vertices,
    idToIndex := st2.idToIndex,
    edgeCount := b.edgeCount,
    biEdgeCount := countBiEdges b }

/-! ### Builder call sequences (for the claims quantifying over them) -/

/-- One public builder mutation, as a reified call. -/
inductive BuilderOp
  | addEdgeOp (origin target cost : Int)
  | addBiEdgeOp (origin target cost : Int)
  | addVertexOp (id : Int)
  deriving Repr, DecidableEq

/-- Apply one reified call. -/
def applyOp (b : Builder) : BuilderOp → Builder
  | .addEdgeOp o t c => addEdge b o t c
  | .addBiEdgeOp o t c => addBiEdge b o t c
  | .addVertexOp i => addVertex b i

/-- Apply a sequence of calls to the zero-value builder. -/
def applyOps (ops : List BuilderOp) : Builder :=
  ops.foldl applyOp Builder.empty

/-- The number of `AddEdge` calls in a sequence. -/
def numAddEdge (ops : List BuilderOp) : Nat :=
  ops.countP fun op => match op with | .addEdgeOp _ _ _ => true | _ => false

/-- The number of `AddBiEdge` calls in a sequence. -/
def numAddBiEdge (ops : List BuilderOp) : Nat :=
  ops.countP fun op => match op with | .addBiEdgeOp _ _ _ => true | _ => false

/-! ### The cost sentinel and amplifier callbacks (types.go, costfunc) -/

/-- `assignMaxNumber` for Go `int` on a 64-bit platform: 2^63 - 1. -/
def maxCost : Int := 9223372036854775807

/-- `CostFunc[I, C, V, E]` (its declaration file is not in the snapshot; the
signature is reconstructed from its uses in dijkstra.go, bellman_ford.go and
the test suite): the callback receives the origin vertex (a pointer in Go,
an index here) and the edge, and returns the effective cost together with an
enabled flag. -/
def CostFunc : Type := Nat → Edge → Int × Bool

/-! ### Bellman-Ford (bellman_ford.go) -/

/-- `bellmanFordVertexData[I, C]`. -/
structure BFData where
  previous : Option Nat
  cost : Int
  deriving Repr, DecidableEq

instance : Inhabited BFData := ⟨{ previous := none, cost := 0 }⟩

/-- The body of the edge loop shared by `relaxAllEdges` (mutating form):
relax one outgoing edge of vertex `i`, honoring the amplifier. -/
def bfRelaxEdge (g : Graph) (amp : Option CostFunc) (i : Nat)
    (vd : List BFData) (edge : Edge) : List BFData :=
  let neighborIdx := cdi g edge.targetVertex
  let step : Int → List BFData :=
    fun edgeCost =>
      let tentative := (vd.getD (cdi g i) default).cost + edgeCost
      if tentative < (vd.getD neighborIdx default).cost then
        setL vd neighborIdx { previous := some i, cost := tentative }
      else vd
  match amp with
  | none => step edge.cost
  | some f =>
      let (c, enabled) := f i edge
      if enabled then step c else vd

/-- `BellmanFord.relaxAllEdges`: one full relaxation round. -/
def relaxAllEdges (g : Graph) (amp : Option CostFunc)
    (vd : List BFData) : List BFData :=
  (List.range g.vertices.length).foldl
    (fun vd i =>
      if (vd.getD (cdi g i) default).cost = maxCost then vd
      else (edgesOf g i).foldl (bfRelaxEdge g amp i) vd)
    vd

/-- `BellmanFord.hasNegativeCycle` (the private probe): can any edge still
be relaxed? -/
def hasNegativeCycleCheck (g : Graph) (amp : Option CostFunc)
    (vd : List BFData) : Bool :=
  (List.range g.vertices.length).any fun i =>
    if (vd.getD (cdi g i) default).cost = maxCost then false
    else (edgesOf g i).any fun edge =>
      let neighborIdx := cdi g edge.targetVertex
      let check : Int → Bool := fun edgeCost =>
        decide ((vd.getD (cdi g i) default).cost + edgeCost
          < (vd.getD neighborIdx default).cost)
      match amp with
      | none => check edge.cost
      | some f =>
          let (c, enabled) := f i edge
          if enabled then check c else false

/-- The scratch state after the reset, the seeding of `start`, and the
`V - 1` relaxation rounds — the common part of `FindShortestPath` and
`HasNegativeCycle` (both perform these identical steps). -/
def bellmanFordRoundsState (g : Graph) (amp : Option CostFunc)
    (si : Nat) : List BFData :=
  let n := g.vertices.length
  let vd0 : List BFData :=
    List.replicate n { previous := none, cost := maxCost }
  let vd1 := setL vd0 (cdi g si) { previous := none, cost := 0 }
  (fun vd => (List.range (n - 1)).foldl (fun vd _ => relaxAllEdges g amp vd) vd) vd1

/-- The backwards walk along `previous` pointers shared by every
`FindShortestPath`'s reconstruction (each algorithm repeats this loop).
`fuel` bounds the walk; every run considered ends at `none` first. -/
def walkPrev (g : Graph) (prevOf : Nat → Option Nat) :
    Nat → Option Nat → List Int → List Int
  | _, none, path => path
  | 0, some _, path => path
  | fuel + 1, some cur, path =>
      walkPrev g prevOf fuel (prevOf cur) (path ++ [idOf g cur])

/-- `BellmanFord.FindShortestPath`.  `none` models the `nil` slice. -/
def bellmanFordFindShortestPath (g : Graph) (amp : Option CostFunc)
    (start endId : Int) : Option (List Int) :=
  match getVertexById g start with
  | none => none
  | some si =>
    match getVertexById g endId with
    | none => none
    | some ei =>
      if start = endId then some [start]
      else
        let vd := bellmanFordRoundsState g amp si
        if hasNegativeCycleCheck g amp vd then none
        else if (vd.getD (cdi g ei) default).cost = maxCost then none
        else
          let path := walkPrev g
            (fun cur => (vd.getD (cdi g cur) default).previous)
            (g.vertices.length + 1) (some ei) []
          some path.reverse

/-- `BellmanFord.HasNegativeCycle(start)`. -/
def hasNegativeCycleFrom (g : Graph) (amp : Option CostFunc)
    (start : Int) : Bool :=
  match getVertexById g start with
  | none => false
  | some si =>
      hasNegativeCycleCheck g amp (bellmanFordRoundsState g amp si)

/-! ### container/heap (the stdlib algorithm Dijkstra and A* delegate to)

`h.Less(i, j)` consults the algorithm's live scratch array, so every heap
operation below is parameterized by the current key function
`key : vertex index → ordering key`. -/

/-- `down(h, i0, n)` of container/heap (sift-down); the boolean result is
unused by `Init` and `Pop`.  `fuel` is a structural-recursion bound only:
the Go loop's variable strictly increases below `n` per iteration, so any
`fuel ≥ n - i` (every call below passes `n`) makes the 0-case dead. -/
def downFrom (key : Nat → Int) (fuel : Nat) (pq : List Nat) (n i : Nat) :
    List Nat :=
  match fuel with
  | 0 => pq
  | fuel + 1 =>
    let j1 := 2 * i + 1
    if j1 < n then
      let j := if j1 + 1 < n ∧ key (getL pq (j1 + 1)) < key (getL pq j1)
        then j1 + 1 else j1
      if key (getL pq j) < key (getL pq i) then
        downFrom key fuel (swapL pq i j) n j
      else pq
    else pq

/-- `up(h, j)` of container/heap (sift-up); `fuel` is a structural bound,
dead for `fuel ≥ j + 1` since `j` strictly decreases per iteration. -/
def upFrom (key : Nat → Int) (fuel : Nat) (pq : List Nat) (j : Nat) :
    List Nat :=
  match fuel with
  | 0 => pq
  | fuel + 1 =>
    let i := (j - 1) / 2
    if i = j then pq
    else if key (getL pq j) < key (getL pq i) then
      upFrom key fuel (swapL pq i j) i
    else pq

/-- `heap.Init(h)`: establish the heap ordering of whatever the slice
already holds; it removes nothing. -/
def heapInit (key : Nat → Int) (pq : List Nat) : List Nat :=
  (List.range (pq.length / 2)).reverse.foldl
    (fun pq i => downFrom key pq.length pq pq.length i) pq

/-- `heap.Push(h, x)`: the interface `Push` appends, then sift-up. -/
def heapPush (key : Nat → Int) (pq : List Nat) (x : Nat) : List Nat :=
  let pq := pq ++ [x]
  upFrom key pq.length pq (pq.length - 1)

/-- `heap.Pop(h)`: swap the root to the last slot, sift-down over the
shortened range, then the interface `Pop` removes and returns the last
element. -/
def heapPop (key : Nat → Int) (pq : List Nat) : Nat × List Nat :=
  let n := pq.length - 1
  let pq := downFrom key n (swapL pq 0 n) n 0
  (getL pq (pq.length - 1), pq.dropLast)

/-! ### Dijkstra (dijkstra.go) -/

/-- `dijkstraVertexData[I, C]`. -/
structure DijData where
  previous : Option Nat
  visited : Bool
  cost : Int
  deriving Repr, DecidableEq

instance : Inhabited DijData := ⟨{ previous := none, visited := false, cost := 0 }⟩

/-- The heap key `dijkstraHeap.Less` uses: the scratch cost of the vertex
at a queue slot, looked up through `GetCustomDataIndex`. -/
def dijKey (g : Graph) (vd : List DijData) : Nat → Int :=
  fun v => (vd.getD (cdi g v) default).cost

/-- The neighbor loop of Dijkstra's main loop: relax every outgoing edge of
`current`, honoring the amplifier, pushing improved neighbors. -/
def dijkstraRelax (g : Graph) (amp : Option CostFunc) (current : Nat)
    (st : List DijData × List Nat) : List DijData × List Nat :=
  (edgesOf g current).foldl
    (fun (st : List DijData × List Nat) edge =>
      let (vd, pq) := st
      let neighbor := edge.targetVertex
      let neighborIdx := cdi g neighbor
      if (vd.getD neighborIdx default).visited then st
      else
        let step : Int → List DijData × List Nat := fun edgeCost =>
          let tentative := (vd.getD (cdi g current) default).cost + edgeCost
          if tentative < (vd.getD neighborIdx default).cost then
            let vd := setL vd neighborIdx
              { previous := some current, visited := false, cost := tentative }
            (vd, heapPush (dijKey g vd) pq neighbor)
          else st
        match amp with
        | none => step edge.cost
        | some f =>
            let (c, enabled) := f current edge
            if enabled then step c else st)
    st

/-- Dijkstra's main loop.  `none` is fuel exhaustion (the Go loop has no
such case; all uses below supply enough fuel). -/
def dijkstraLoop (g : Graph) (amp : Option CostFunc) (endId : Int) :
    Nat → List DijData → List Nat → Option (List DijData × List Nat)
  | 0, vd, pq => if pq.length = 0 then some (vd, pq) else none
  | fuel + 1, vd, pq =>
    if pq.length = 0 then some (vd, pq)
    else
      let (current, pq) := heapPop (dijKey g vd) pq
      let currentIdx := cdi g current
      let cData := vd.getD currentIdx default
      if cData.visited then dijkstraLoop g amp endId fuel vd pq
      else
        let vd := setL vd currentIdx { cData with visited := true }
        if idOf g current = endId then some (vd, pq)
        else
          let (vd, pq) := dijkstraRelax g amp current (vd, pq)
          dijkstraLoop g amp endId fuel vd pq

/-- `Dijkstra.FindShortestPath` on an instance whose reusable heap slice
currently holds `pq0` (a fresh `NewDijkstra` instance has `pq0 = []`).
Returns the result together with the heap slice left for the next call;
the outer `Option` is fuel exhaustion only. -/
def dijkstraFindShortestPath (fuel : Nat) (g : Graph) (amp : Option CostFunc)
    (pq0 : List Nat) (start endId : Int) :
    Option (Option (List Int) × List Nat) :=
  match getVertexById g start with
  | none => some (none, pq0)
  | some si =>
    match getVertexById g endId with
    | none => some (none, pq0)
    | some ei =>
      if start = endId then some (some [start], pq0)
      else
        let n := g.vertices.length
        let vd0 : List DijData :=
          List.replicate n { previous := none, visited := false, cost := maxCost }
        let pq1 := heapInit (dijKey g vd0) pq0
        let vd1 := setL vd0 (cdi g si)
          { previous := none, visited := false, cost := 0 }
        let pq2 := heapPush (dijKey g vd1) pq1 si
        match dijkstraLoop g amp endId fuel vd1 pq2 with
        | none => none
        | some (vdF, pqF) =>
          if (vdF.getD (cdi g ei) default).visited = false then
            some (none, pqF)
          else
            let path := walkPrev g
              (fun cur => (vdF.getD (cdi g cur) default).previous)
              (n + 1) (some ei) []
            some (some path.reverse, pqF)

/-! ### A* (astar.go as present in the snapshot: no amplifier field) -/

/-- `astarVertexData[I, C]`. -/
structure AStarData where
  previous : Option Nat
  visited : Bool
  gScore : Int
  fScore : Int
  deriving Repr, DecidableEq

instance : Inhabited AStarData :=
  ⟨{ previous := none, visited := false, gScore := 0, fScore := 0 }⟩

/-- `HeuristicFunc[I, C]`: estimated cost between two identifiers. -/
def HeuristicFunc : Type := Int → Int → Int

/-- The heap key `astarHeap.Less` uses: the scratch f-score. -/
def astarKey (g : Graph) (vd : List AStarData) : Nat → Int :=
  fun v => (vd.getD (cdi g v) default).fScore

/-- The neighbor loop of A*'s main loop.  Note: the snapshot's `AStar` has
no amplifier; the raw stored `edge.cost` is always used. -/
def astarRelax (g : Graph) (h : HeuristicFunc) (endId : Int) (current : Nat)
    (st : List AStarData × List Nat) : List AStarData × List Nat :=
  (edgesOf g current).foldl
    (fun (st : List AStarData × List Nat) edge =>
      let (vd, pq) := st
      let neighbor := edge.targetVertex
      let neighborIdx := cdi g neighbor
      if (vd.getD neighborIdx default).visited then st
      else
        let tentativeG := (vd.getD (cdi g current) default).gScore + edge.cost
        if tentativeG < (vd.getD neighborIdx default).gScore then
          let vd := setL vd neighborIdx
            { previous := some current, visited := false,
              gScore := tentativeG,
              fScore := tentativeG + h (idOf g neighbor) endId }
          (vd, heapPush (astarKey g vd) pq neighbor)
        else st)
    st

/-- A*'s main loop; `none` is fuel exhaustion only. -/
def astarLoop (g : Graph) (h : HeuristicFunc) (endId : Int) :
    Nat → List AStarData → List Nat → Option (List AStarData × List Nat)
  | 0, vd, pq => if pq.length = 0 then some (vd, pq) else none
  | fuel + 1, vd, pq =>
    if pq.length = 0 then some (vd, pq)
    else
      let (current, pq) := heapPop (astarKey g vd) pq
      let currentIdx := cdi g current
      let cData := vd.getD currentIdx default
      if cData.visited then astarLoop g h endId fuel vd pq
      else
        let vd := setL vd currentIdx { cData with visited := true }
        if idOf g current = endId then some (vd, pq)
        else
          let (vd, pq) := astarRelax g h endId current (vd, pq)
          astarLoop g h endId fuel vd pq

/-- `AStar.FindShortestPath` (fresh instances pass `pq0 = []`). -/
def astarFindShortestPath (fuel : Nat) (g : Graph) (h : HeuristicFunc)
    (pq0 : List Nat) (start endId : Int) :
    Option (Option (List Int) × List Nat) :=
  match getVertexById g start with
  | none => some (none, pq0)
  | some si =>
    match getVertexById g endId with
    | none => some (none, pq0)
    | some ei =>
      if start = endId then some (some [start], pq0)
      else
        let n := g.vertices.length
        let vd0 : List AStarData :=
          List.replicate n
            { previous := none, visited := false,
              gScore := maxCost, fScore := maxCost }
        let pq1 := heapInit (astarKey g vd0) pq0
        let vd1 := setL vd0 (cdi g si)
          { previous := none, visited := false,
            gScore := 0, fScore := h start endId }
        let pq2 := heapPush (astarKey g vd1) pq1 si
        match astarLoop g h endId fuel vd1 pq2 with
        | none => none
        | some (vdF, pqF) =>
          if (vdF.getD (cdi g ei) default).visited = false then
            some (none, pqF)
          else
            let path := walkPrev g
              (fun cur => (vdF.getD (cdi g cur) default).previous)
              (n + 1) (some ei) []
            some (some path.reverse, pqF)

/-! ### DFS traversal (dfs.go, reproduced in CONTRIBUTING.md)

`TraverseFrom`'s observable behavior is the sequence of `(vertex,
incoming edge)` pairs handed to the callback, modeled here as the returned
list (the incoming edge is `none` for the start vertex, mirroring the
`nil` edge). -/

/-- `dfsVertexData[I, C]`.  (`visiting` is written by the reset but only
read by the cycle search, which is not under scrutiny here.) -/
structure DFSData where
  visited : Bool
  parent : Option Nat
  visiting : Bool
  deriving Repr, DecidableEq

instance : Inhabited DFSData :=
  ⟨{ visited := false, parent := none, visiting := false }⟩

/-- One push of `dfsTraverseWithCallback`'s neighbor loop: skip visited
targets, otherwise record the parent and push `(neighbor, edge)`.  The Go
loop walks the edges in reverse index order so that the stack pops them in
stored order; the fold below receives the reversed edge list. -/
def dfsPush (g : Graph) (current : Nat)
    (st : List (Nat × Option Edge) × List DFSData) (edge : Edge) :
    List (Nat × Option Edge) × List DFSData :=
  let (stack, data) := st
  let neighborIdx := cdi g edge.targetVertex
  if (data.getD neighborIdx default).visited then st
  else
    ((edge.targetVertex, some edge) :: stack,
      updL data neighborIdx fun d => { d with parent := some current })

/-- The explicit-stack loop of `dfsTraverseWithCallback`.  The stack's top
is the list head.  `fuel` only bounds the iteration count for Lean: every
iteration pops one item, and items are pushed only when a vertex is first
visited, so any `fuel ≥ dfsPotential` makes the 0-case dead (proved
below). -/
def dfsTraverseLoop (g : Graph) :
    Nat → List (Nat × Option Edge) → List DFSData →
    List (Nat × Option Edge) × List DFSData
  | _, [], data => ([], data)
  | 0, _ :: _, data => ([], data)
  | fuel + 1, (current, incomingEdge) :: stack, data =>
      let currentIdx := cdi g current
      if (data.getD currentIdx default).visited then
        dfsTraverseLoop g fuel stack data
      else
        let data1 := updL data currentIdx fun d => { d with visited := true }
        match (edgesOf g current).reverse.foldl (dfsPush g current)
          ([], data1) with
        | (pushed, data2) =>
            match dfsTraverseLoop g fuel (pushed ++ stack) data2 with
            | (out, data3) => ((current, incomingEdge) :: out, data3)

/-- The out-degree of the vertex stored at index `i`. -/
def outDeg (g : Graph) (i : Nat) : Nat := (edgesOf g i).length

/-- The total number of directed edges stored across the vertex array. -/
def totalEdges (g : Graph) : Nat :=
  ∑ i ∈ Finset.range g.vertices.length, outDeg g i

/-- `DFS.TraverseFrom`: no-op on an invalid start identifier; otherwise
reset the scratch records and run the stack loop from `(start, nil)`. -/
def traverseFrom (g : Graph) (start : Int) : List (Nat × Option Edge) :=
  match getVertexById g start with
  | none => []
  | some si =>
      (dfsTraverseLoop g (totalEdges g + 1) [(si, none)]
        (List.replicate g.vertices.length
          { visited := false, parent := none, visiting := false })).1

/-- The in-range vertices a visited-flag list still marks unvisited. -/
def unvisB (n : Nat) (vis : List Bool) : Finset Nat :=
  (Finset.range n).filter fun i => vis.getD i false = false

/-- The iteration bound of both traversal machines: pending agenda items
plus the out-degrees of the still-unvisited vertices. -/
def dfsPotential (g : Graph) (agenda : List (Nat × Option Edge))
    (vis : List Bool) : Nat :=
  agenda.length + ∑ i ∈ unvisB g.vertices.length vis, outDeg g i

/-- The visited-flag view of the implementation's scratch array. -/
def visView (data : List DFSData) : List Bool :=
  data.map DFSData.visited

/-- The deterministic preorder the specification describes, as a worklist
linearization of the recursive depth-first visit: take the next pending
`(vertex, incoming edge)`; if the vertex is already visited drop it,
otherwise emit it, mark it, and prepend all its edges' targets in stored
order.  This is the comparison semantics for the order clause of the
traversal claim, written from the spec rather than from the code. -/
def dfsPreorder (g : Graph) :
    Nat → List (Nat × Option Edge) → List Bool →
    List (Nat × Option Edge) × List Bool
  | _, [], vis => ([], vis)
  | 0, _ :: _, vis => ([], vis)
  | fuel + 1, (current, incomingEdge) :: rest, vis =>
      if vis.getD current false then dfsPreorder g fuel rest vis
      else
        match dfsPreorder g fuel
          ((edgesOf g current).map (fun e => (e.targetVertex, some e))
            ++ rest)
          (setL vis current true) with
        | (out, vis') => ((current, incomingEdge) :: out, vis')

/-- Directed reachability along stored edges, by vertex index. -/
def Reaches (g : Graph) (u v : Nat) : Prop :=
  Relation.ReflTransGen
    (fun a b => ∃ e ∈ edgesOf g a, e.targetVertex = b) u v

/-! ### Path cost (used to state the "total cost" parts of claims) -/

/-- The cost of the first stored edge from the vertex with identifier `a`
to a vertex with identifier `b`, if any. -/
def edgeCostBetween (g : Graph) (a b : Int) : Option Int :=
  match getVertexById g a with
  | none => none
  | some i =>
      ((edgesOf g i).find? fun e => idOf g e.targetVertex = b).map Edge.cost

/-- The total cost of a path given as a list of identifiers; `none` when two
consecutive identifiers are not joined by a directed edge. -/
def pathCost (g : Graph) : List Int → Option Int
  | [] => none
  | [_] => some 0
  | a :: b :: rest =>
      match edgeCostBetween g a b, pathCost g (b :: rest) with
      | some c, some r => some (c + r)
      | _, _ => none

/-! ### Concrete graphs used by the claims -/

/-- The all-zero heuristic of the A* test suite (`zeroHeuristic`). -/
def zeroHeuristic : HeuristicFunc := fun _ _ => 0

/-- The builder of the amplifier scenario: directed edges
1→2(1), 1→3(2), 2→4(2), 3→4(3). -/
def ampDemoBuilder : Builder :=
  addEdge (addEdge (addEdge (addEdge Builder.empty 1 2 1) 1 3 2) 2 4 2) 3 4 3

/-- The compiled amplifier-scenario graph. -/
def ampDemoGraph : Graph := buildDirected ampDemoBuilder

/-- The amplifier of the test suite's "Amplifier disables specific edges"
scenario: disable the edge 1→2, keep every other edge at its stored cost. -/
def disable12Amplifier : CostFunc := fun origin e =>
  if idOf ampDemoGraph origin = 1 ∧ idOf ampDemoGraph e.targetVertex = 2
  then (0, false) else (e.cost, true)

/-- The README's Dijkstra example graph with identifiers A..E encoded as
1..5: A→B(4), A→C(2), B→C(1), B→D(5), C→D(8), C→E(10), D→E(2). -/
def readmeBuilder : Builder :=
  addEdge (addEdge (addEdge (addEdge (addEdge (addEdge (addEdge
    Builder.empty 1 2 4) 1 3 2) 2 3 1) 2 4 5) 3 4 8) 3 5 10) 4 5 2

/-- The compiled README example graph. -/
def readmeGraph : Graph := buildDirected readmeBuilder

/-- The negative-cycle graph: 1→2(1), 2→3(1), 3→1(−3). -/
def negCycleBuilder : Builder :=
  addEdge (addEdge (addEdge Builder.empty 1 2 1) 2 3 1) 3 1 (-3)

/-- The compiled negative-cycle graph. -/
def negCycleGraph : Graph := buildDirected negCycleBuilder

/-- The graph exhibiting the stale-heap behavior of a reused Dijkstra
instance: 1→2(1), 1→3(2). -/
def staleHeapBuilder : Builder :=
  addEdge (addEdge Builder.empty 1 2 1) 1 3 2

/-- The compiled stale-heap graph. -/
def staleHeapGraph : Graph := buildDirected staleHeapBuilder

/-- The builder of the `CountBiEdges` example:
`AddBiEdge(1,2)`, `AddBiEdge(2,3)`, `AddEdge(1,3)`. -/
def biEdgeDemoBuilder : Builder :=
  addEdge (addBiEdge (addBiEdge Builder.empty 1 2 1) 2 3 1) 1 3 1

/-- The builder of the implicit-vertex example:
`AddEdge(1,2)`, `AddEdge(2,3)`, `AddEdge(1,3)`. -/
def implicitDemoBuilder : Builder :=
  addEdge (addEdge (addEdge Builder.empty 1 2 1) 2 3 1) 1 3 1

/-- The unordered endpoint pair of an edge DTO, as stated by the spec
("distinct unordered identifier pairs \x7borigin,target\x7d"). -/
def pairSet (e : EdgeDto) : Finset Int := {e.origin, e.target}

/-- The spec-side count `CountBiEdges` is claimed to return: the number of
distinct unordered endpoint pairs among the accumulated edge DTOs. -/
def distinctUnorderedPairCount (b : Builder) : Nat :=
  ((builderEdges b).map pairSet).toFinset.card

/-- The unordered pair behind a canonicalized `(origin, target)` key. -/
def keyToSet (p : Int × Int) : Finset Int := {p.1, p.2}

/-! ### Connected components (connected_components.go) -/

/-- `connectedComponentsVertexData[I]`. -/
structure CCData where
  visited : Bool
  componentId : Int
  deriving Repr, DecidableEq

instance : Inhabited CCData := ⟨{ visited := false, componentId := 0 }⟩

/-- The `visited` flag of the scratch slot `i`. -/
def visAt (data : List CCData) (i : Nat) : Bool :=
  (data.getD i default).visited

/-- The in-range slots still unvisited (drives the DFS fuel accounting). -/
def unvis (n : Nat) (data : List CCData) : Finset Nat :=
  (Finset.range n).filter fun i => visAt data i = false

/-- Does vertex `i` have an outgoing edge whose target is the vertex stored
at index `v`?  (`edge.GetTargetVertex() == vertex` compares pointers into
the vertex array, hence indices here.) -/
def hasEdgeToIdx (g : Graph) (i v : Nat) : Bool :=
  (edgesOf g i).any fun e => e.targetVertex = v

mutual
/-- `dfs` of connected_components.go: mark the vertex, emit its identifier,
expand along outgoing edges, then scan every vertex for an edge into this
one.  `fuel` only bounds the recursion depth for Lean: each actual
recursive call consumes an unvisited vertex, so any
`fuel > (unvis n data).card` makes the 0-case dead (proved below). -/
def ccDfs (g : Graph) (fuel : Nat) (vIdx : Nat) (cid : Int)
    (data : List CCData) : List Int × List CCData :=
  match fuel with
  | 0 => ([], data)
  | fuel + 1 =>
      let vertexIdx := cdi g vIdx
      let data1 := setL data vertexIdx { visited := true, componentId := cid }
      let (comp1, data2) := ccDfsOut g fuel (edgesOf g vIdx) cid data1
      let (comp2, data3) :=
        ccDfsIn g fuel vIdx (List.range g.vertices.length) cid data2
      (idOf g vIdx :: (comp1 ++ comp2), data3)
termination_by (fuel, 0, 0)

/-- The outgoing-edge loop of `dfs`: recurse on each unvisited target, in
stored edge order, appending the recursive component slices. -/
def ccDfsOut (g : Graph) (fuel : Nat) (edges : List Edge) (cid : Int)
    (data : List CCData) : List Int × List CCData :=
  match edges with
  | [] => ([], data)
  | edge :: rest =>
      let neighborIdx := cdi g edge.targetVertex
      if (data.getD neighborIdx default).visited then
        ccDfsOut g fuel rest cid data
      else
        match ccDfs g fuel edge.targetVertex cid data with
        | (c1, data1) =>
            match ccDfsOut g fuel rest cid data1 with
            | (c2, data2) => (c1 ++ c2, data2)
termination_by (fuel, 1, edges.length)

/-- The incoming-edge scan of `dfs`: walk every vertex index in order and
recurse on each unvisited vertex owning an edge into `vIdx`. -/
def ccDfsIn (g : Graph) (fuel : Nat) (vIdx : Nat) (is : List Nat)
    (cid : Int) (data : List CCData) : List Int × List CCData :=
  match is with
  | [] => ([], data)
  | i :: rest =>
      let otherIdx := cdi g i
      if (data.getD otherIdx default).visited then
        ccDfsIn g fuel vIdx rest cid data
      else if hasEdgeToIdx g i vIdx then
        match ccDfs g fuel i cid data with
        | (c1, data1) =>
            match ccDfsIn g fuel vIdx rest cid data1 with
            | (c2, data2) => (c1 ++ c2, data2)
      else ccDfsIn g fuel vIdx rest cid data
termination_by (fuel, 1, is.length)
end

/-- One iteration of `FindConnectedComponents`' vertex loop: start a new
component at vertex `i` unless it is already visited; keep the component
only when non-empty, as the Go code checks. -/
def ccStep (g : Graph) (st : List (List Int) × List CCData × Int)
    (i : Nat) : List (List Int) × List CCData × Int :=
  let (components, data, componentId) := st
  if (data.getD (cdi g i) default).visited then st
  else
    match ccDfs g (g.vertices.length + 1) i componentId data with
    | (component, data') =>
        if component.length > 0 then
          (components ++ [component], data', componentId + 1)
        else (components, data', componentId)

/-- `FindConnectedComponents`: visit every vertex in index order, starting
a fresh component at each unvisited one. -/
def findConnectedComponents (g : Graph) : List (List Int) :=
  let n := g.vertices.length
  let data0 : List CCData :=
    List.replicate n { visited := false, componentId := -1 }
  ((List.range n).foldl (ccStep g) ([], data0, 0)).1

/-- The well-formedness invariants §3 guarantees for every compiled graph:
each vertex's custom-data index is its own position, and every edge targets
a vertex inside the array. -/
structure GraphWF (g : Graph) : Prop where
  hcdi : ∀ i, i < g.vertices.length → cdi g i = i
  htarget : ∀ i, i < g.vertices.length →
    ∀ e ∈ edgesOf g i, e.targetVertex < g.vertices.length
  hmap : ∀ p ∈ g.idToIndex, p.2 < g.vertices.length

/-- What one `dfs` expansion (or a loop thereof) does to the scratch state:
`newIdx` lists the newly visited vertex indices, the emitted component
slice is their identifiers in order, and every newly visited vertex has all
its out-neighbors and in-neighbors visited afterwards. -/
structure CCPost (g : Graph) (data data' : List CCData) (comp : List Int)
    (newIdx : List Nat) : Prop where
  hlen : data'.length = data.length
  hmono : ∀ i, visAt data i = true → visAt data' i = true
  hnodup : newIdx.Nodup
  hmem : ∀ i, i ∈ newIdx ↔ (visAt data i = false ∧ visAt data' i = true)
  hcomp : comp = newIdx.map (idOf g)
  hbound : ∀ i ∈ newIdx, i < g.vertices.length
  hclosed : ∀ w ∈ newIdx,
    (∀ e ∈ edgesOf g w, visAt data' e.targetVertex = true)
    ∧ (∀ u, u < g.vertices.length → hasEdgeToIdx g u w = true →
        visAt data' u = true)

/-- The `ccDfs` contract at a given fuel level. -/
def CCDfsOK (g : Graph) (fuel : Nat) : Prop :=
  ∀ (vIdx : Nat) (cid : Int) (data : List CCData),
    data.length = g.vertices.length →
    vIdx < g.vertices.length →
    visAt data vIdx = false →
    (unvis g.vertices.length data).card < fuel →
    ∃ newIdx, vIdx ∈ newIdx
      ∧ CCPost g data (ccDfs g fuel vIdx cid data).2
          (ccDfs g fuel vIdx cid data).1 newIdx

/-- The `ccDfsOut` contract at a given fuel level. -/
def CCOutOK (g : Graph) (fuel : Nat) : Prop :=
  ∀ (edges : List Edge) (cid : Int) (data : List CCData),
    data.length = g.vertices.length →
    (∀ e ∈ edges, e.targetVertex < g.vertices.length) →
    (unvis g.vertices.length data).card < fuel →
    ∃ newIdx,
      CCPost g data (ccDfsOut g fuel edges cid data).2
        (ccDfsOut g fuel edges cid data).1 newIdx
      ∧ ∀ e ∈ edges,
          visAt (ccDfsOut g fuel edges cid data).2 e.targetVertex = true

/-- The `ccDfsIn` contract at a given fuel level. -/
def CCInOK (g : Graph) (fuel : Nat) : Prop :=
  ∀ (is : List Nat) (vIdx : Nat) (cid : Int) (data : List CCData),
    data.length = g.vertices.length →
    (∀ i ∈ is, i < g.vertices.length) →
    (unvis g.vertices.length data).card < fuel →
    ∃ newIdx,
      CCPost g data (ccDfsIn g fuel vIdx is cid data).2
        (ccDfsIn g fuel vIdx is cid data).1 newIdx
      ∧ ∀ i ∈ is, hasEdgeToIdx g i vIdx = true →
          visAt (ccDfsIn g fuel vIdx is cid data).2 i = true

/-- The invariant of `FindConnectedComponents`' vertex loop: `ls` lists the
components as vertex-index lists; the emitted components are their
identifier images; the index lists are disjoint, exhaustive over the
visited set, in range, and each component is closed under outgoing and
incoming edges within itself and the components started before it. -/
structure TopInv (g : Graph) (components : List (List Int))
    (data : List CCData) (ls : List (List Nat)) : Prop where
  hlen : data.length = g.vertices.length
  hcomps : components = ls.map (List.map (idOf g))
  hnodup : ls.flatten.Nodup
  hvis : ∀ i, i ∈ ls.flatten ↔ visAt data i = true
  hbound : ∀ i ∈ ls.flatten, i < g.vertices.length
  hclosed : ∀ s, s < ls.length → ∀ w ∈ ls.getD s [],
    (∀ e ∈ edgesOf g w, e.targetVertex ∈ (ls.take (s + 1)).flatten)
    ∧ (∀ u, u < g.vertices.length → hasEdgeToIdx g u w = true →
        u ∈ (ls.take (s + 1)).flatten)

/-- The invariant maintained by `BuildDirected`'s two fill passes.  `N` is
the predicted vertex-array length, `seen` the identifier occurrences already
consumed (each edge DTO contributes its origin then its target, each vertex
DTO its identifier), `future` the occurrences still to come. -/
structure BInv (N : Nat) (st : BuildState) (seen future : List Int) : Prop where
  hlen : st.vertices.length = N
  hN : (seen ++ future).toFinset.card = N
  hcnt : st.vertIdxCnt = seen.toFinset.card
  hlook : ∀ x i, lookupIdx st.idToIndex x = some i →
    i < st.vertIdxCnt
    ∧ (st.vertices.getD i default).id = x
    ∧ (st.vertices.getD i default).customDataIndex = i
  hdom : ∀ x, (lookupIdx st.idToIndex x).isSome = true ↔ x ∈ seen
  hslot : ∀ i, i < st.vertIdxCnt →
    (st.vertices.getD i default).customDataIndex = i
    ∧ lookupIdx st.idToIndex ((st.vertices.getD i default).id) = some i

/-!
## Theorems

Helper lemmas first, then one theorem per claim (with witnesses and
counterexamples where required).
-/

/-- `AddEdgeDto` increments the edge counter by exactly one. -/
theorem addEdgeDto_edgeCount (b : Builder) (dto : EdgeDto) :
    (addEdgeDto b dto).edgeCount = b.edgeCount + 1 := by
  unfold addEdgeDto
  split <;> rfl

/-- `AddEdge` increments the edge counter by exactly one. -/
theorem addEdge_edgeCount (b : Builder) (o t c : Int) :
    (addEdge b o t c).edgeCount = b.edgeCount + 1 :=
  addEdgeDto_edgeCount b _

/-- `AddVertexDto` leaves the edge counter unchanged. -/
theorem addVertexDto_edgeCount (b : Builder) (dto : VertexDto) :
    (addVertexDto b dto).edgeCount = b.edgeCount := by
  unfold addVertexDto
  split <;> rfl

/-- The edge-counter contribution of a single reified builder call. -/
theorem applyOp_edgeCount (b : Builder) (op : BuilderOp) :
    (applyOp b op).edgeCount = b.edgeCount +
      (match op with
        | .addEdgeOp _ _ _ => 1
        | .addBiEdgeOp _ _ _ => 2
        | .addVertexOp _ => 0) := by
  cases op with
  | addEdgeOp o t c => exact addEdge_edgeCount b o t c
  | addBiEdgeOp o t c =>
      show (addEdge (addEdge b o t c) t o c).edgeCount = b.edgeCount + 2
      rw [addEdge_edgeCount, addEdge_edgeCount]
  | addVertexOp i => exact addVertexDto_edgeCount b _

/-- The edge counter after a call sequence, from any starting state. -/
theorem foldl_applyOp_edgeCount (ops : List BuilderOp) : ∀ b : Builder,
    (ops.foldl applyOp b).edgeCount =
      b.edgeCount + numAddEdge ops + 2 * numAddBiEdge ops := by
  induction ops with
  | nil => intro b; simp [numAddEdge, numAddBiEdge]
  | cons op rest ih =>
      intro b
      simp only [List.foldl_cons, ih, applyOp_edgeCount, numAddEdge,
        numAddBiEdge, List.countP_cons]
      cases op <;> simp <;> ring

/-- Canonical keys have their smaller component first. -/
theorem canonPair_le (e : EdgeDto) : (canonPair e).1 ≤ (canonPair e).2 := by
  unfold canonPair
  split
  · simp_all
    omega
  · simp_all

/-- `keyToSet` recovers the canonical key from the unordered pair. -/
theorem keyToSet_injOn_canonical (p q : Int × Int)
    (hp : p.1 ≤ p.2) (hq : q.1 ≤ q.2) (h : keyToSet p = keyToSet q) :
    p = q := by
  obtain ⟨a, b⟩ := p
  obtain ⟨c, d⟩ := q
  simp only [keyToSet] at h hp hq
  have ha : a ∈ ({c, d} : Finset Int) := by
    rw [← h]; simp
  have hb : b ∈ ({c, d} : Finset Int) := by
    rw [← h]; simp
  have hc : c ∈ ({a, b} : Finset Int) := by
    rw [h]; simp
  have hd : d ∈ ({a, b} : Finset Int) := by
    rw [h]; simp
  simp only [Finset.mem_insert, Finset.mem_singleton] at ha hb hc hd
  simp only [Prod.mk.injEq]
  omega

/-- The unordered endpoint pair of an edge DTO equals the unordered pair of
its canonical key. -/
theorem pairSet_eq_keyToSet_canonPair (e : EdgeDto) :
    pairSet e = keyToSet (canonPair e) := by
  unfold pairSet canonPair keyToSet
  split
  · exact Finset.pair_comm e.origin e.target
  · rfl

/-- `toFinset` of a mapped list is the image of the `toFinset`. -/
theorem toFinset_of_map {α β : Type} [DecidableEq α] [DecidableEq β]
    (f : α → β) (l : List α) : (l.map f).toFinset = l.toFinset.image f := by
  induction l with
  | nil => simp
  | cons a l ih => simp [ih]

/-- `CountBiEdges` counts exactly the distinct unordered endpoint pairs. -/
theorem countBiEdges_eq_distinct (b : Builder) :
    countBiEdges b = distinctUnorderedPairCount b := by
  have hmap : (builderEdges b).map pairSet
      = ((builderEdges b).map canonPair).map keyToSet := by
    rw [List.map_map]
    exact List.map_congr_left fun e _ => pairSet_eq_keyToSet_canonPair e
  have hinj : Set.InjOn keyToSet
      ((((builderEdges b).map canonPair).toFinset : Finset (Int × Int)) :
        Set (Int × Int)) := by
    intro p hp q hq hpq
    have hp' : p.1 ≤ p.2 := by
      simp only [Finset.coe_sort_coe, List.coe_toFinset, Set.mem_setOf_eq,
        List.mem_map] at hp
      obtain ⟨e, _, he⟩ := hp
      rw [← he]
      exact canonPair_le e
    have hq' : q.1 ≤ q.2 := by
      simp only [Finset.coe_sort_coe, List.coe_toFinset, Set.mem_setOf_eq,
        List.mem_map] at hq
      obtain ⟨e, _, he⟩ := hq
      rw [← he]
      exact canonPair_le e
    exact keyToSet_injOn_canonical p q hp' hq' hpq
  unfold countBiEdges distinctUnorderedPairCount
  rw [hmap, toFinset_of_map, Finset.card_image_of_injOn hinj,
    List.card_toFinset]

/-- C6: for every sequence of builder calls the total edge count equals the
number of `add_edge` calls plus twice the number of `add_bi_edge` calls;
`CountBiEdges` returns the number of distinct unordered endpoint pairs
among the accumulated edge DTOs; and the concrete sequence `AddBiEdge(1,2)`,
`AddBiEdge(2,3)`, `AddEdge(1,3)` yields `CountBiEdges() == 3`. -/
theorem C6_builder_edge_counting :
    (∀ ops : List BuilderOp,
      (applyOps ops).edgeCount = numAddEdge ops + 2 * numAddBiEdge ops)
    ∧ (∀ b : Builder, countBiEdges b = distinctUnorderedPairCount b)
    ∧ countBiEdges biEdgeDemoBuilder = 3 := by
  refine ⟨fun ops => ?_, countBiEdges_eq_distinct, by decide⟩
  have := foldl_applyOp_edgeCount ops Builder.empty
  simpa [applyOps, Builder.empty] using this

/-- C9: `GetVertexByIndex(idx)` errors exactly when `idx < 0` or
`idx >= GetVertexCount()`, and otherwise succeeds, returning the vertex
stored at position `idx` of the vertex array. -/
theorem C9_get_vertex_by_index (g : Graph) (idx : Int) :
    (getVertexByIndex g idx = none ↔
      idx < 0 ∨ (getVertexCount g : Int) ≤ idx)
    ∧ ∀ (_ : 0 ≤ idx) (hlt : idx < (getVertexCount g : Int)),
        getVertexByIndex g idx = some (g.vertices.get ⟨idx.toNat, by
          simp only [getVertexCount] at hlt
          omega⟩) := by
  constructor
  · unfold getVertexByIndex getVertexCount
    constructor
    · intro h
      by_contra hc
      push_neg at hc
      rw [if_neg] at h
      · exact Option.noConfusion h
      · push_neg
        exact hc
    · intro h
      rw [if_pos]
      exact h
  · intro h0 hlt
    unfold getVertexByIndex
    rw [if_neg]
    · congr 1
      apply List.getD_eq_getElem
    · push_neg
      unfold getVertexCount at hlt
      omega

/-- Closed witness for C9 at a concrete graph and index. -/
theorem C9_witness :
    getVertexByIndex staleHeapGraph 1 =
      some (staleHeapGraph.vertices.get ⟨(1 : Int).toNat, by decide⟩) :=
  (C9_get_vertex_by_index staleHeapGraph 1).2 (by decide) (by decide)

/-- C4 (the theorem): whenever both identifiers are valid and distinct and,
after the `V - 1` relaxation rounds seeded at `start`, some edge can still
be relaxed, `BellmanFord.FindShortestPath` returns absent; concretely, on
1→2(1), 2→3(1), 3→1(−3), `HasNegativeCycle(1)` is true and
`FindShortestPath(1,3)` is absent. -/
theorem C4_bellman_ford_negcycle_absent :
    (∀ (g : Graph) (amp : Option CostFunc) (s e : Int) (si ei : Nat),
      getVertexById g s = some si → getVertexById g e = some ei → s ≠ e →
      hasNegativeCycleCheck g amp (bellmanFordRoundsState g amp si) = true →
      bellmanFordFindShortestPath g amp s e = none)
    ∧ hasNegativeCycleFrom negCycleGraph none 1 = true
    ∧ bellmanFordFindShortestPath negCycleGraph none 1 3 = none := by
  refine ⟨?_, by decide, by decide⟩
  intro g amp s e si ei hs he hne hcyc
  unfold bellmanFordFindShortestPath
  simp only [hs, he, if_neg hne, hcyc, if_true]

/-- Closed witness for C4 at the concrete negative-cycle graph. -/
theorem C4_witness :
    bellmanFordFindShortestPath negCycleGraph none 1 3 = none :=
  C4_bellman_ford_negcycle_absent.1 negCycleGraph none 1 3 0 2
    (by decide) (by decide) (by decide) (by decide)

/-- C1 (code versus claim, evaluated at the failing input): on the graph
1→2(1), 1→3(2), 2→4(2), 3→4(3), the snapshot's `AStar` — which has no
`Amplifier` field and consults no amplifier during relaxation — returns
`[1,2,4]` from `FindShortestPath(1,4)`, while `Dijkstra` and `BellmanFord`
with the edge-1→2-disabling amplifier installed both return `[1,3,4]` as
the claim (and the A* test suite, astar_test.go `TestAStarWithAmplifier`)
expects. -/
theorem C1_astar_amplifier_divergence :
    astarFindShortestPath 100 ampDemoGraph zeroHeuristic [] 1 4
      = some (some [1, 2, 4], []) ∧
    dijkstraFindShortestPath 100 ampDemoGraph (some disable12Amplifier) [] 1 4
      = some (some [1, 3, 4], []) ∧
    bellmanFordFindShortestPath ampDemoGraph (some disable12Amplifier) 1 4
      = some [1, 3, 4] ∧
    (some [1, 2, 4] : Option (List Int)) ≠ some [1, 3, 4] := by
  refine ⟨by decide, by decide, by decide, by decide⟩

/-- C2 (code versus claim, evaluated at the failing input): on the graph
1→2(1), 1→3(2), the first query `FindShortestPath(1,2)` breaks out of the
main loop on reaching vertex 2 and leaves vertex 3 in the instance's heap
slice (`heap.Init` reorders but never empties it); the follow-up query
`FindShortestPath(2,3)` on the reused instance then returns `[3]` — not
even a path starting at 2 — while the same query on a fresh instance
returns absent. -/
theorem C2_stale_heap_divergence :
    dijkstraFindShortestPath 100 staleHeapGraph none [] 1 2
      = some (some [1, 2], [2]) ∧
    dijkstraFindShortestPath 100 staleHeapGraph none [2] 2 3
      = some (some [3], []) ∧
    dijkstraFindShortestPath 100 staleHeapGraph none [] 2 3
      = some (none, []) ∧
    (some [3] : Option (List Int)) ≠ (none : Option (List Int)) := by
  refine ⟨by decide, by decide, by decide, by decide⟩

/-- C3 (counterexample): on the README graph A→B(4), A→C(2), B→C(1),
B→D(5), C→D(8), C→E(10), D→E(2) (A..E encoded as 1..5), Dijkstra's
`FindShortestPath(A,E)` does not return `[A,C,B,D,E]`: it returns
`[A,B,D,E]`, and `[A,C,B,D,E]` is not even a directed path of this graph
(there is no C→B edge). -/
theorem C3_counterexample :
    (dijkstraFindShortestPath 100 readmeGraph none [] 1 5).map Prod.fst
      = some (some [1, 2, 4, 5]) ∧
    (some (some [1, 2, 4, 5]) : Option (Option (List Int)))
      ≠ some (some [1, 3, 2, 4, 5]) ∧
    pathCost readmeGraph [1, 3, 2, 4, 5] = none := by
  refine ⟨by decide, by decide, by decide⟩

/-- C3 (amended): on the README graph, `FindShortestPath(A,E)` returns
`[A,B,D,E]` with total cost 11. -/
theorem C3_dijkstra_readme_route :
    (dijkstraFindShortestPath 100 readmeGraph none [] 1 5).map Prod.fst
      = some (some [1, 2, 4, 5]) ∧
    pathCost readmeGraph [1, 2, 4, 5] = some 11 := by
  refine ⟨by decide, by decide⟩

/-! ### Positional-update lemmas for `setL` / `updL` / `lookupIdx` -/

/-- `setL` preserves the length. -/
theorem setL_length {α : Type} (l : List α) (i : Nat) (a : α) :
    (setL l i a).length = l.length := by
  induction l generalizing i with
  | nil => rfl
  | cons b rest ih =>
      cases i with
      | zero => rfl
      | succ i => simp [setL, ih]

/-- Reading the slot `setL` wrote (in range). -/
theorem getD_setL_self {α : Type} (l : List α) (i : Nat) (a d : α)
    (h : i < l.length) : (setL l i a).getD i d = a := by
  induction l generalizing i with
  | nil => simp at h
  | cons b rest ih =>
      cases i with
      | zero => rfl
      | succ i =>
          simp only [setL, List.getD_cons_succ]
          exact ih i (by simpa using h)

/-- Reading any other slot after `setL`. -/
theorem getD_setL_ne {α : Type} (l : List α) {i j : Nat} (a d : α)
    (h : i ≠ j) : (setL l i a).getD j d = l.getD j d := by
  induction l generalizing i j with
  | nil => rfl
  | cons b rest ih =>
      cases i with
      | zero =>
          cases j with
          | zero => exact absurd rfl h
          | succ j => rfl
      | succ i =>
          cases j with
          | zero => rfl
          | succ j =>
              simp only [setL, List.getD_cons_succ]
              exact ih (fun hh => h (by omega))

/-- `updL` preserves the length. -/
theorem updL_length {α : Type} (l : List α) (i : Nat) (f : α → α) :
    (updL l i f).length = l.length := by
  induction l generalizing i with
  | nil => rfl
  | cons b rest ih =>
      cases i with
      | zero => rfl
      | succ i => simp [updL, ih]

/-- `updL` beyond the end is the identity. -/
theorem updL_out_of_range {α : Type} (l : List α) (i : Nat) (f : α → α)
    (h : l.length ≤ i) : updL l i f = l := by
  induction l generalizing i with
  | nil => rfl
  | cons b rest ih =>
      cases i with
      | zero => simp at h
      | succ i =>
          simp only [updL, List.cons.injEq, true_and]
          exact ih i (by simpa using h)

/-- Reading the slot `updL` rewrote (in range). -/
theorem getD_updL_self {α : Type} (l : List α) (i : Nat) (f : α → α)
    (d : α) (h : i < l.length) : (updL l i f).getD i d = f (l.getD i d) := by
  induction l generalizing i with
  | nil => simp at h
  | cons b rest ih =>
      cases i with
      | zero => rfl
      | succ i =>
          simp only [updL, List.getD_cons_succ]
          exact ih i (by simpa using h)

/-- Reading any other slot after `updL`. -/
theorem getD_updL_ne {α : Type} (l : List α) {i j : Nat} (f : α → α)
    (d : α) (h : i ≠ j) : (updL l i f).getD j d = l.getD j d := by
  induction l generalizing i j with
  | nil => rfl
  | cons b rest ih =>
      cases i with
      | zero =>
          cases j with
          | zero => exact absurd rfl h
          | succ j => rfl
      | succ i =>
          cases j with
          | zero => rfl
          | succ j =>
              simp only [updL, List.getD_cons_succ]
              exact ih (fun hh => h (by omega))

/-- Association-list lookup distributes over append, first list first. -/
theorem lookupIdx_append (m m2 : List (Int × Nat)) (x : Int) :
    lookupIdx (m ++ m2) x =
      match lookupIdx m x with
      | some v => some v
      | none => lookupIdx m2 x := by
  induction m with
  | nil => rfl
  | cons p rest ih =>
      obtain ⟨k, v⟩ := p
      by_cases hk : k = x
      · simp [lookupIdx, hk]
      · simp only [List.cons_append, lookupIdx, if_neg hk]
        exact ih

/-! ### The `BuildDirected` index-assignment invariant -/

/-- Moving the head occurrence from `future` to `seen` preserves the
occurrence set. -/
theorem toFinset_shift (seen future : List Int) (x : Int) :
    (seen ++ [x] ++ future).toFinset = (seen ++ x :: future).toFinset := by
  ext a
  simp only [List.toFinset_append, Finset.mem_union, List.mem_toFinset,
    List.mem_singleton, List.mem_cons]
  tauto

/-- `ensureVertex` preserves the invariant, consuming one occurrence, and
returns a valid index the identifier now maps to. -/
theorem ensureVertex_inv {N : Nat} {st : BuildState} {seen future : List Int}
    {x : Int} (h : BInv N st seen (x :: future)) :
    BInv N (ensureVertex st x).1 (seen ++ [x]) future
    ∧ (ensureVertex st x).2 < (ensureVertex st x).1.vertIdxCnt
    ∧ lookupIdx (ensureVertex st x).1.idToIndex x
        = some (ensureVertex st x).2
    ∧ (ensureVertex st x).1.vertices.length = st.vertices.length
    ∧ (ensureVertex st x).1.edgeIdxCnt = st.edgeIdxCnt := by
  cases hl : lookupIdx st.idToIndex x with
  | some i =>
      have hred : ensureVertex st x = (st, i) := by
        unfold ensureVertex
        rw [hl]
      rw [hred]
      have hx_seen : x ∈ seen := (h.hdom x).1 (by simp [hl])
      have hseenset : (seen ++ [x]).toFinset = seen.toFinset := by
        simp only [List.toFinset_append, List.toFinset_cons,
          List.toFinset_nil, insert_emptyc_eq]
        rw [Finset.union_comm, ← Finset.insert_eq]
        exact Finset.insert_eq_self.2 (by simpa using hx_seen)
      refine ⟨⟨h.hlen, ?_, ?_, h.hlook, ?_, h.hslot⟩,
        (h.hlook x i hl).1, hl, rfl, rfl⟩
      · rw [toFinset_shift]
        exact h.hN
      · rw [hseenset]
        exact h.hcnt
      · intro y
        rw [h.hdom y]
        constructor
        · intro hy
          exact List.mem_append_left _ hy
        · intro hy
          rcases List.mem_append.1 hy with hy | hy
          · exact hy
          · rw [List.mem_singleton.1 hy]
            exact hx_seen
  | none =>
      have hred : ensureVertex st x =
          ({ st with
              vertices := setL st.vertices st.vertIdxCnt
                { id := x, customDataIndex := st.vertIdxCnt, edges := [] },
              idToIndex := st.idToIndex ++ [(x, st.vertIdxCnt)],
              vertIdxCnt := st.vertIdxCnt + 1 },
            st.vertIdxCnt) := by
        unfold ensureVertex
        rw [hl]
      rw [hred]
      have hx_new : x ∉ seen := by
        intro hx
        have := (h.hdom x).2 hx
        rw [hl] at this
        simp at this
      have hcard : (seen ++ [x]).toFinset.card = seen.toFinset.card + 1 := by
        simp only [List.toFinset_append, List.toFinset_cons,
          List.toFinset_nil, insert_emptyc_eq]
        rw [Finset.union_comm, ← Finset.insert_eq]
        exact Finset.card_insert_of_not_mem (by simpa using hx_new)
      have hsub : (seen ++ [x]).toFinset ⊆ (seen ++ x :: future).toFinset := by
        intro a ha
        simp only [List.toFinset_append, Finset.mem_union,
          List.mem_toFinset, List.mem_singleton, List.mem_cons] at ha ⊢
        tauto
      have hcnt_lt : st.vertIdxCnt < N := by
        have hle : (seen ++ [x]).toFinset.card ≤ N := by
          rw [← h.hN]
          exact Finset.card_le_card hsub
        rw [hcard] at hle
        rw [h.hcnt]
        omega
      refine ⟨⟨?_, ?_, ?_, ?_, ?_, ?_⟩, Nat.lt_succ_self _, ?_, ?_, rfl⟩
      · rw [setL_length]
        exact h.hlen
      · rw [toFinset_shift]
        exact h.hN
      · rw [hcard, h.hcnt]
      · intro y i hy
        rw [lookupIdx_append] at hy
        cases hold : lookupIdx st.idToIndex y with
        | some i0 =>
            rw [hold] at hy
            simp only at hy
            obtain ⟨hi1, hi2, hi3⟩ := h.hlook y i0 hold
            obtain rfl : i0 = i := Option.some.inj hy
            refine ⟨Nat.lt_succ_of_lt hi1, ?_, ?_⟩
            · rw [getD_setL_ne _ _ _ (by omega)]
              exact hi2
            · rw [getD_setL_ne _ _ _ (by omega)]
              exact hi3
        | none =>
            rw [hold] at hy
            simp only [lookupIdx] at hy
            by_cases hxy : x = y
            · rw [if_pos hxy] at hy
              obtain rfl : st.vertIdxCnt = i := Option.some.inj hy
              rw [getD_setL_self _ _ _ _ (by rw [h.hlen]; exact hcnt_lt)]
              exact ⟨Nat.lt_succ_self _, hxy, rfl⟩
            · rw [if_neg hxy] at hy
              simp [lookupIdx] at hy
      · intro y
        rw [lookupIdx_append]
        cases hold : lookupIdx st.idToIndex y with
        | some i0 =>
            simp only [Option.isSome_some, true_iff]
            have := (h.hdom y).1 (by simp [hold])
            exact List.mem_append_left _ this
        | none =>
            simp only [lookupIdx]
            by_cases hxy : x = y
            · simp only [if_pos hxy, Option.isSome_some, true_iff]
              exact List.mem_append_right _ (by simp [hxy])
            · simp only [if_neg hxy, lookupIdx, Option.isSome_none,
                Bool.false_eq_true, false_iff]
              intro hcon
              rcases List.mem_append.1 hcon with hc | hc
              · have := (h.hdom y).2 hc
                rw [hold] at this
                simp at this
              · exact hxy (List.mem_singleton.1 hc).symm
      · intro i hi
        have hi' : i < st.vertIdxCnt + 1 := hi
        by_cases hic : i = st.vertIdxCnt
        · subst hic
          rw [getD_setL_self _ _ _ _ (by rw [h.hlen]; exact hcnt_lt)]
          refine ⟨rfl, ?_⟩
          rw [lookupIdx_append, hl]
          simp [lookupIdx]
        · have hilt : i < st.vertIdxCnt := by omega
          obtain ⟨hs1, hs2⟩ := h.hslot i hilt
          rw [getD_setL_ne _ _ _ (by omega)]
          refine ⟨hs1, ?_⟩
          rw [lookupIdx_append, hs2]
      · rw [lookupIdx_append, hl]
        simp [lookupIdx]
      · exact setL_length _ _ _

/-- `buildEdgeStep` preserves the invariant, consuming the origin and
target occurrences of one edge DTO. -/
theorem buildEdgeStep_inv {N : Nat} {st : BuildState} {seen future : List Int}
    (e : EdgeDto)
    (h : BInv N st seen (e.origin :: e.target :: future)) :
    BInv N (buildEdgeStep st e) (seen ++ [e.origin, e.target]) future := by
  obtain ⟨h1, _, _, _, _⟩ := ensureVertex_inv h
  obtain ⟨h2, _, _, _, _⟩ := ensureVertex_inv h1
  unfold buildEdgeStep
  set st1 := (ensureVertex st e.origin).1 with hst1
  set oi := (ensureVertex st e.origin).2 with hoi
  set st2 := (ensureVertex st1 e.target).1 with hst2
  have hpre : ∀ j,
      ((updL st2.vertices oi fun v =>
        { v with edges := v.edges ++
            [{ cost := e.cost, targetVertex := (ensureVertex st1 e.target).2,
               customDataIndex := st2.edgeIdxCnt }] }).getD j default).id
        = (st2.vertices.getD j default).id
      ∧ ((updL st2.vertices oi fun v =>
        { v with edges := v.edges ++
            [{ cost := e.cost, targetVertex := (ensureVertex st1 e.target).2,
               customDataIndex := st2.edgeIdxCnt }] }).getD j default).customDataIndex
        = (st2.vertices.getD j default).customDataIndex := by
    intro j
    by_cases hj : oi = j
    · subst hj
      by_cases hr : oi < st2.vertices.length
      · rw [getD_updL_self _ _ _ _ hr]
        exact ⟨rfl, rfl⟩
      · rw [updL_out_of_range _ _ _ (by omega)]
        exact ⟨rfl, rfl⟩
    · rw [getD_updL_ne _ _ _ hj]
      exact ⟨rfl, rfl⟩
  have happ : seen ++ [e.origin] ++ [e.target] = seen ++ [e.origin, e.target] := by
    simp
  rw [← happ]
  exact
    { hlen := by rw [updL_length]; exact h2.hlen
      hN := h2.hN
      hcnt := h2.hcnt
      hlook := by
        intro y i hy
        obtain ⟨ha, hb, hc⟩ := h2.hlook y i hy
        exact ⟨ha, by rw [(hpre i).1]; exact hb, by rw [(hpre i).2]; exact hc⟩
      hdom := h2.hdom
      hslot := by
        intro i hi
        obtain ⟨ha, hb⟩ := h2.hslot i hi
        exact ⟨by rw [(hpre i).2]; exact ha, by rw [(hpre i).1]; exact hb⟩ }

/-- `buildVertexStep` preserves the invariant, consuming one identifier
occurrence. -/
theorem buildVertexStep_inv {N : Nat} {st : BuildState}
    {seen future : List Int} (v : VertexDto)
    (h : BInv N st seen (v.id :: future)) :
    BInv N (buildVertexStep st v) (seen ++ [v.id]) future :=
  (ensureVertex_inv h).1

/-- The edge pass preserves the invariant across a whole DTO list. -/
theorem foldl_buildEdgeStep_inv (es : List EdgeDto) {N : Nat} :
    ∀ (st : BuildState) (seen future : List Int),
    BInv N st seen ((es.flatMap fun e => [e.origin, e.target]) ++ future) →
    BInv N (es.foldl buildEdgeStep st)
      (seen ++ es.flatMap fun e => [e.origin, e.target]) future := by
  induction es with
  | nil => intro st seen future h; simpa using h
  | cons e rest ih =>
      intro st seen future h
      have hstep := buildEdgeStep_inv e (by
        have : (((e :: rest).flatMap fun e => [e.origin, e.target]) ++ future)
            = e.origin :: e.target ::
              ((rest.flatMap fun e => [e.origin, e.target]) ++ future) := by
          simp
        rw [this] at h
        exact h)
      have := ih (buildEdgeStep st e) (seen ++ [e.origin, e.target])
        future hstep
      simpa [List.append_assoc] using this

/-- The vertex pass preserves the invariant across a whole DTO list. -/
theorem foldl_buildVertexStep_inv (vs : List VertexDto) {N : Nat} :
    ∀ (st : BuildState) (seen future : List Int),
    BInv N st seen (vs.map VertexDto.id ++ future) →
    BInv N (vs.foldl buildVertexStep st) (seen ++ vs.map VertexDto.id)
      future := by
  induction vs with
  | nil => intro st seen future h; simpa using h
  | cons v rest ih =>
      intro st seen future h
      have hstep := buildVertexStep_inv v (by
        have : ((v :: rest).map VertexDto.id ++ future)
            = v.id :: (rest.map VertexDto.id ++ future) := by simp
        rw [this] at h
        exact h)
      have := ih (buildVertexStep st v) (seen ++ [v.id]) future hstep
      simpa [List.append_assoc] using this

/-- `BuildDirected` establishes the invariant with every occurrence seen. -/
theorem buildDirected_inv (b : Builder) :
    BInv (predictVertexArrayLength b)
      ((builderVertices b).foldl buildVertexStep
        ((builderEdges b).foldl buildEdgeStep
          { vertices := List.replicate (predictVertexArrayLength b) default,
            idToIndex := [], vertIdxCnt := 0, edgeIdxCnt := 0 }))
      (allIdOccurrences b) [] := by
  have h0 : BInv (predictVertexArrayLength b)
      { vertices := List.replicate (predictVertexArrayLength b) default,
        idToIndex := [], vertIdxCnt := 0, edgeIdxCnt := 0 }
      [] (allIdOccurrences b) := by
    refine ⟨List.length_replicate _ _, ?_, by simp, ?_, ?_, ?_⟩
    · simp only [List.nil_append]
      rw [List.card_toFinset]
      rfl
    · intro x i hx
      simp [lookupIdx] at hx
    · intro x
      simp [lookupIdx]
    · intro i hi
      simp at hi
  have h1 := foldl_buildEdgeStep_inv (builderEdges b)
    { vertices := List.replicate (predictVertexArrayLength b) default,
      idToIndex := [], vertIdxCnt := 0, edgeIdxCnt := 0 }
    [] ((builderVertices b).map VertexDto.id) (by
      simpa [allIdOccurrences] using h0)
  have h2 := foldl_buildVertexStep_inv (builderVertices b) _
    ((builderEdges b).flatMap fun e => [e.origin, e.target]) [] (by
      simpa using h1)
  simpa [allIdOccurrences] using h2

/-- C5: after `BuildDirected`, every identifier that appears as an explicit
vertex or an edge endpoint has exactly one index: `GetVertexCount` is the
number of distinct such identifiers, `GetVertexById` succeeds on each of
them with a vertex carrying that identifier, `vertices[i].customDataIndex
== i` and `idToIndex[vertices[i].id] == i` for every position `i`; and the
builder with only `AddEdge(1,2)`, `AddEdge(2,3)`, `AddEdge(1,3)` yields 3
vertices and 3 directed edges. -/
theorem C5_build_directed_indexing (b : Builder) :
    (getVertexCount (buildDirected b) = (allIdOccurrences b).dedup.length)
    ∧ (∀ x ∈ allIdOccurrences b, ∃ i,
        getVertexById (buildDirected b) x = some i
        ∧ idOf (buildDirected b) i = x)
    ∧ (∀ i < getVertexCount (buildDirected b),
        cdi (buildDirected b) i = i
        ∧ lookupIdx (buildDirected b).idToIndex
            (idOf (buildDirected b) i) = some i)
    ∧ getVertexCount (buildDirected implicitDemoBuilder) = 3
    ∧ getEdgeCount (buildDirected implicitDemoBuilder) = 3 := by
  have hinv := buildDirected_inv b
  have hg : buildDirected b =
      { vertices := ((builderVertices b).foldl buildVertexStep
          ((builderEdges b).foldl buildEdgeStep
            { vertices :=
                List.replicate (predictVertexArrayLength b) default,
              idToIndex := [], vertIdxCnt := 0, edgeIdxCnt := 0 })).vertices,
        idToIndex := ((builderVertices b).foldl buildVertexStep
          ((builderEdges b).foldl buildEdgeStep
            { vertices :=
                List.replicate (predictVertexArrayLength b) default,
              idToIndex := [], vertIdxCnt := 0, edgeIdxCnt := 0 })).idToIndex,
        edgeCount := b.edgeCount,
        biEdgeCount := countBiEdges b } := rfl
  set stF := (builderVertices b).foldl buildVertexStep
    ((builderEdges b).foldl buildEdgeStep
      { vertices := List.replicate (predictVertexArrayLength b) default,
        idToIndex := [], vertIdxCnt := 0, edgeIdxCnt := 0 }) with hstF
  have hcount : getVertexCount (buildDirected b)
      = predictVertexArrayLength b := by
    rw [hg]
    exact hinv.hlen
  have hcntN : stF.vertIdxCnt = predictVertexArrayLength b := by
    have := hinv.hcnt
    have hN := hinv.hN
    simp only [List.append_nil] at hN
    rw [this, hN]
  refine ⟨?_, ?_, ?_, by decide, by decide⟩
  · rw [hcount]
    unfold predictVertexArrayLength
    rfl
  · intro x hx
    have hin : (lookupIdx stF.idToIndex x).isSome = true :=
      (hinv.hdom x).2 hx
    cases hl : lookupIdx stF.idToIndex x with
    | none => rw [hl] at hin; simp at hin
    | some i =>
        refine ⟨i, ?_, ?_⟩
        · rw [hg]
          exact hl
        · obtain ⟨_, hid, _⟩ := hinv.hlook x i hl
          rw [hg]
          exact hid
  · intro i hi
    have hilt : i < stF.vertIdxCnt := by
      rw [hcntN]
      rw [hcount] at hi
      exact hi
    obtain ⟨hc, hlk⟩ := hinv.hslot i hilt
    exact ⟨by rw [hg]; exact hc, by rw [hg]; exact hlk⟩

/-- Closed witness for C5: identifier 2 of the implicit-vertex example
receives an index whose vertex carries identifier 2. -/
theorem C5_witness :
    ∃ i, getVertexById (buildDirected implicitDemoBuilder) 2 = some i
      ∧ idOf (buildDirected implicitDemoBuilder) i = 2 :=
  (C5_build_directed_indexing implicitDemoBuilder).2.1 2 (by decide)

/-! ### Connected-components: scratch-state bookkeeping lemmas -/

/-- Marking a slot sets its `visited` flag (in range). -/
theorem visAt_setL_self (data : List CCData) (v : Nat) (d : CCData)
    (h : v < data.length) : visAt (setL data v d) v = d.visited := by
  unfold visAt
  rw [getD_setL_self _ _ _ _ h]

/-- Marking a slot leaves every other slot's flag unchanged. -/
theorem visAt_setL_ne (data : List CCData) {v j : Nat} (d : CCData)
    (h : v ≠ j) : visAt (setL data v d) j = visAt data j := by
  unfold visAt
  rw [getD_setL_ne _ _ _ h]

/-- Marking an unvisited in-range slot erases it from the unvisited set. -/
theorem unvis_setL (g : Graph) (data : List CCData) (v : Nat) (cid : Int)
    (hlen : data.length = g.vertices.length) (hv : v < g.vertices.length) :
    unvis g.vertices.length
      (setL data v { visited := true, componentId := cid })
      = (unvis g.vertices.length data).erase v := by
  ext i
  simp only [unvis, Finset.mem_filter, Finset.mem_range, Finset.mem_erase]
  constructor
  · intro ⟨hin, hflag⟩
    by_cases hiv : v = i
    · subst hiv
      rw [visAt_setL_self _ _ _ (by omega)] at hflag
      simp at hflag
    · rw [visAt_setL_ne _ _ hiv] at hflag
      exact ⟨fun hh => hiv hh.symm, hin, hflag⟩
  · intro ⟨hne, hin, hflag⟩
    refine ⟨hin, ?_⟩
    rw [visAt_setL_ne _ _ (fun hh => hne hh.symm)]
    exact hflag

/-- A monotone state update shrinks the unvisited set. -/
theorem unvis_subset_of_mono (n : Nat) {data data' : List CCData}
    (h : ∀ i, visAt data i = true → visAt data' i = true) :
    unvis n data' ⊆ unvis n data := by
  intro i hi
  simp only [unvis, Finset.mem_filter, Finset.mem_range] at hi ⊢
  refine ⟨hi.1, ?_⟩
  by_contra hc
  have : visAt data i = true := by
    cases hvi : visAt data i
    · exact absurd hvi hc
    · rfl
  rw [h i this] at hi
  simp at hi

/-- The identity postcondition (a loop that does nothing). -/
theorem CCPost.refl (g : Graph) (data : List CCData) :
    CCPost g data data [] [] := by
  refine ⟨rfl, fun i h => h, List.nodup_nil, ?_, rfl, ?_, ?_⟩
  · intro i
    simp only [List.not_mem_nil, false_iff]
    intro ⟨h1, h2⟩
    rw [h1] at h2
    exact Bool.noConfusion h2
  · intro i h
    exact absurd h (List.not_mem_nil i)
  · intro w h
    exact absurd h (List.not_mem_nil w)

/-- Sequential composition of postconditions. -/
theorem CCPost.comp {g : Graph} {d1 d2 d3 : List CCData}
    {c1 c2 : List Int} {l1 l2 : List Nat}
    (p : CCPost g d1 d2 c1 l1) (q : CCPost g d2 d3 c2 l2) :
    CCPost g d1 d3 (c1 ++ c2) (l1 ++ l2) := by
  have hdisj : ∀ i, i ∈ l1 → i ∉ l2 := by
    intro i h1 h2
    have hv2 : visAt d2 i = true := ((p.hmem i).1 h1).2
    have hv2' : visAt d2 i = false := ((q.hmem i).1 h2).1
    rw [hv2] at hv2'
    exact Bool.noConfusion hv2'
  refine ⟨?_, ?_, ?_, ?_, ?_, ?_, ?_⟩
  · rw [q.hlen, p.hlen]
  · intro i h
    exact q.hmono i (p.hmono i h)
  · rw [List.nodup_append]
    exact ⟨p.hnodup, q.hnodup, fun i h1 => hdisj i h1⟩
  · intro i
    rw [List.mem_append]
    constructor
    · intro h
      rcases h with h | h
      · obtain ⟨ha, hb⟩ := (p.hmem i).1 h
        exact ⟨ha, q.hmono i hb⟩
      · obtain ⟨ha, hb⟩ := (q.hmem i).1 h
        refine ⟨?_, hb⟩
        cases hd1 : visAt d1 i
        · rfl
        · rw [p.hmono i hd1] at ha
          exact Bool.noConfusion ha
    · intro ⟨ha, hb⟩
      cases hd2 : visAt d2 i
      · exact Or.inr ((q.hmem i).2 ⟨hd2, hb⟩)
      · exact Or.inl ((p.hmem i).2 ⟨ha, hd2⟩)
  · rw [p.hcomp, q.hcomp, List.map_append]
  · intro i h
    rcases List.mem_append.1 h with h | h
    · exact p.hbound i h
    · exact q.hbound i h
  · intro w h
    rcases List.mem_append.1 h with h | h
    · obtain ⟨ho, hi⟩ := p.hclosed w h
      refine ⟨fun e he => q.hmono _ (ho e he), fun u hu hue => q.hmono _ (hi u hu hue)⟩
    · exact q.hclosed w h

/-- A postcondition never grows the unvisited set. -/
theorem CCPost.unvis_le {g : Graph} {d d' : List CCData} {c : List Int}
    {l : List Nat} (p : CCPost g d d' c l) (n : Nat) :
    (unvis n d').card ≤ (unvis n d).card :=
  Finset.card_le_card (unvis_subset_of_mono n p.hmono)

/-- The outgoing-edge loop satisfies its contract whenever the recursive
calls it makes do. -/
theorem ccDfsOut_ok (g : Graph) (hwf : GraphWF g) (fuel : Nat)
    (hdfs : CCDfsOK g fuel) : CCOutOK g fuel := by
  intro edges
  induction edges with
  | nil =>
      intro cid data hlen htg hfuel
      have hstep : ccDfsOut g fuel [] cid data = ([], data) := by
        rw [ccDfsOut]
      refine ⟨[], ?_, by simp⟩
      rw [hstep]
      exact CCPost.refl g data
  | cons e rest ih =>
      intro cid data hlen htg hfuel
      have htgt : e.targetVertex < g.vertices.length := htg e (by simp)
      have hc : cdi g e.targetVertex = e.targetVertex := hwf.hcdi _ htgt
      have htgrest : ∀ e' ∈ rest, e'.targetVertex < g.vertices.length :=
        fun e' he' => htg e' (by simp [he'])
      by_cases hv : (data.getD (cdi g e.targetVertex) default).visited = true
      · have hstep : ccDfsOut g fuel (e :: rest) cid data
            = ccDfsOut g fuel rest cid data := by
          rw [ccDfsOut]
          simp only [hv, if_true]
        obtain ⟨l, hp, hall⟩ := ih cid data hlen htgrest hfuel
        rw [hstep]
        refine ⟨l, hp, ?_⟩
        intro e' he'
        rcases List.mem_cons.1 he' with rfl | he'
        · have hvis : visAt data e'.targetVertex = true := by
            unfold visAt
            rw [← hc]
            exact hv
          exact hp.hmono _ hvis
        · exact hall e' he'
      · rcases hd1 : ccDfs g fuel e.targetVertex cid data with ⟨c1, d1⟩
        rcases hd2 : ccDfsOut g fuel rest cid d1 with ⟨c2, d2⟩
        have hstep : ccDfsOut g fuel (e :: rest) cid data = (c1 ++ c2, d2) := by
          rw [ccDfsOut, if_neg hv, hd1]
          simp only []
          rw [hd2]
        have hfalse : visAt data e.targetVertex = false := by
          unfold visAt
          rw [← hc]
          exact Bool.not_eq_true _ ▸ (by simpa using hv)
        obtain ⟨l1, hmem1, hp1⟩ :=
          hdfs e.targetVertex cid data hlen htgt hfalse hfuel
        rw [hd1] at hp1
        have hlen1 : d1.length = g.vertices.length := by
          rw [hp1.hlen, hlen]
        have hfuel1 : (unvis g.vertices.length d1).card < fuel :=
          lt_of_le_of_lt (hp1.unvis_le _) hfuel
        obtain ⟨l2, hp2, hall2⟩ := ih cid d1 hlen1 htgrest hfuel1
        rw [hd2] at hp2 hall2
        rw [hstep]
        refine ⟨l1 ++ l2, hp1.comp hp2, ?_⟩
        intro e' he'
        rcases List.mem_cons.1 he' with rfl | he'
        · have h1 : visAt d1 e'.targetVertex = true :=
            ((hp1.hmem _).1 hmem1).2
          exact hp2.hmono _ h1
        · exact hall2 e' he'

/-- The incoming-edge scan satisfies its contract whenever the recursive
calls it makes do. -/
theorem ccDfsIn_ok (g : Graph) (hwf : GraphWF g) (fuel : Nat)
    (hdfs : CCDfsOK g fuel) : CCInOK g fuel := by
  intro is
  induction is with
  | nil =>
      intro vIdx cid data hlen hbnd hfuel
      have hstep : ccDfsIn g fuel vIdx [] cid data = ([], data) := by
        rw [ccDfsIn]
      refine ⟨[], ?_, by simp⟩
      rw [hstep]
      exact CCPost.refl g data
  | cons i rest ih =>
      intro vIdx cid data hlen hbnd hfuel
      have hilt : i < g.vertices.length := hbnd i (by simp)
      have hc : cdi g i = i := hwf.hcdi _ hilt
      have hbrest : ∀ i' ∈ rest, i' < g.vertices.length :=
        fun i' hi' => hbnd i' (by simp [hi'])
      by_cases hv : (data.getD (cdi g i) default).visited = true
      · have hstep : ccDfsIn g fuel vIdx (i :: rest) cid data
            = ccDfsIn g fuel vIdx rest cid data := by
          rw [ccDfsIn]
          simp only [hv, if_true]
        obtain ⟨l, hp, hall⟩ := ih vIdx cid data hlen hbrest hfuel
        rw [hstep]
        refine ⟨l, hp, ?_⟩
        intro i' hi' hedge
        rcases List.mem_cons.1 hi' with rfl | hi'
        · have hvis : visAt data i' = true := by
            unfold visAt
            rw [← hc]
            exact hv
          exact hp.hmono _ hvis
        · exact hall i' hi' hedge
      · by_cases he : hasEdgeToIdx g i vIdx = true
        · rcases hd1 : ccDfs g fuel i cid data with ⟨c1, d1⟩
          rcases hd2 : ccDfsIn g fuel vIdx rest cid d1 with ⟨c2, d2⟩
          have hstep : ccDfsIn g fuel vIdx (i :: rest) cid data
              = (c1 ++ c2, d2) := by
            rw [ccDfsIn, if_neg hv, if_pos he, hd1]
            simp only []
            rw [hd2]
          have hfalse : visAt data i = false := by
            unfold visAt
            rw [← hc]
            exact Bool.not_eq_true _ ▸ (by simpa using hv)
          obtain ⟨l1, hmem1, hp1⟩ := hdfs i cid data hlen hilt hfalse hfuel
          rw [hd1] at hp1
          have hlen1 : d1.length = g.vertices.length := by
            rw [hp1.hlen, hlen]
          have hfuel1 : (unvis g.vertices.length d1).card < fuel :=
            lt_of_le_of_lt (hp1.unvis_le _) hfuel
          obtain ⟨l2, hp2, hall2⟩ := ih vIdx cid d1 hlen1 hbrest hfuel1
          rw [hd2] at hp2 hall2
          rw [hstep]
          refine ⟨l1 ++ l2, hp1.comp hp2, ?_⟩
          intro i' hi' hedge
          rcases List.mem_cons.1 hi' with rfl | hi'
          · have h1 : visAt d1 i' = true := ((hp1.hmem _).1 hmem1).2
            exact hp2.hmono _ h1
          · exact hall2 i' hi' hedge
        · have hstep : ccDfsIn g fuel vIdx (i :: rest) cid data
              = ccDfsIn g fuel vIdx rest cid data := by
            rw [ccDfsIn, if_neg hv, if_neg he]
          obtain ⟨l, hp, hall⟩ := ih vIdx cid data hlen hbrest hfuel
          rw [hstep]
          refine ⟨l, hp, ?_⟩
          intro i' hi' hedge
          rcases List.mem_cons.1 hi' with rfl | hi'
          · exact absurd hedge he
          · exact hall i' hi' hedge

/-- `ccDfs` satisfies its contract at every fuel level. -/
theorem ccDfs_ok (g : Graph) (hwf : GraphWF g) : ∀ fuel, CCDfsOK g fuel := by
  intro fuel
  induction fuel with
  | zero =>
      intro v cid data hlen hvlt hfalse hfuel
      exact absurd hfuel (Nat.not_lt_zero _)
  | succ fuel ih =>
      have hout := ccDfsOut_ok g hwf fuel ih
      have hin := ccDfsIn_ok g hwf fuel ih
      intro vIdx cid data hlen hvlt hfalse hfuel
      have hc : cdi g vIdx = vIdx := hwf.hcdi _ hvlt
      set data1 := setL data vIdx { visited := true, componentId := cid }
        with hdata1
      have hlen1 : data1.length = g.vertices.length := by
        rw [hdata1, setL_length, hlen]
      have hvtrue : visAt data1 vIdx = true := by
        rw [hdata1]
        rw [visAt_setL_self _ _ _ (by omega)]
      have hmono01 : ∀ i, visAt data i = true → visAt data1 i = true := by
        intro i hi
        by_cases hiv : vIdx = i
        · subst hiv
          exact hvtrue
        · rw [hdata1, visAt_setL_ne _ _ hiv]
          exact hi
      have hvmem : vIdx ∈ unvis g.vertices.length data := by
        simp only [unvis, Finset.mem_filter, Finset.mem_range]
        exact ⟨hvlt, hfalse⟩
      have hfuel1 : (unvis g.vertices.length data1).card < fuel := by
        rw [hdata1, unvis_setL g data vIdx cid hlen hvlt,
          Finset.card_erase_of_mem hvmem]
        have hpos : 0 < (unvis g.vertices.length data).card :=
          Finset.card_pos.2 ⟨vIdx, hvmem⟩
        omega
      rcases ho : ccDfsOut g fuel (edgesOf g vIdx) cid data1 with ⟨c1, d2⟩
      rcases hi : ccDfsIn g fuel vIdx (List.range g.vertices.length) cid d2
        with ⟨c2, d3⟩
      have hstep : ccDfs g (fuel + 1) vIdx cid data
          = (idOf g vIdx :: (c1 ++ c2), d3) := by
        rw [ccDfs]
        simp only [hc]
        rw [← hdata1, ho]
        simp only []
        rw [hi]
      obtain ⟨l1, hp1, hall1⟩ := hout (edgesOf g vIdx) cid data1 hlen1
        (hwf.htarget vIdx hvlt) hfuel1
      rw [ho] at hp1 hall1
      have hlen2 : d2.length = g.vertices.length := by
        rw [hp1.hlen, hlen1]
      have hfuel2 : (unvis g.vertices.length d2).card < fuel :=
        lt_of_le_of_lt (hp1.unvis_le _) hfuel1
      obtain ⟨l2, hp2, hall2⟩ := hin (List.range g.vertices.length) vIdx cid
        d2 hlen2 (fun i hi => List.mem_range.1 hi) hfuel2
      rw [hi] at hp2 hall2
      have hp12 := hp1.comp hp2
      rw [hstep]
      refine ⟨vIdx :: (l1 ++ l2), List.mem_cons_self _ _, ?_⟩
      have hvnotin : vIdx ∉ l1 ++ l2 := by
        intro hmem
        have := ((hp12.hmem vIdx).1 hmem).1
        rw [hvtrue] at this
        exact Bool.noConfusion this
      refine ⟨?_, ?_, ?_, ?_, ?_, ?_, ?_⟩
      · show d3.length = data.length
        rw [hp12.hlen, hdata1, setL_length]
      · intro i hi'
        exact hp12.hmono i (hmono01 i hi')
      · exact List.nodup_cons.2 ⟨hvnotin, hp12.hnodup⟩
      · intro i
        constructor
        · intro hmem
          rcases List.mem_cons.1 hmem with rfl | hmem
          · exact ⟨hfalse, hp12.hmono _ hvtrue⟩
          · obtain ⟨ha, hb⟩ := (hp12.hmem i).1 hmem
            refine ⟨?_, hb⟩
            by_cases hiv : vIdx = i
            · subst hiv
              rw [hvtrue] at ha
              exact Bool.noConfusion ha
            · rw [hdata1, visAt_setL_ne _ _ hiv] at ha
              exact ha
        · intro ⟨ha, hb⟩
          by_cases hiv : vIdx = i
          · subst hiv
            exact List.mem_cons_self _ _
          · have ha1 : visAt data1 i = false := by
              rw [hdata1, visAt_setL_ne _ _ hiv]
              exact ha
            exact List.mem_cons_of_mem _ ((hp12.hmem i).2 ⟨ha1, hb⟩)
      · show idOf g vIdx :: (c1 ++ c2) = (vIdx :: (l1 ++ l2)).map (idOf g)
        rw [List.map_cons, ← hp12.hcomp]
      · intro i hi'
        rcases List.mem_cons.1 hi' with rfl | hi'
        · exact hvlt
        · exact hp12.hbound i hi'
      · intro w hw
        rcases List.mem_cons.1 hw with rfl | hw
        · constructor
          · intro e he
            exact hp2.hmono _ (hall1 e he)
          · intro u hu hue
            exact hall2 u (List.mem_range.2 hu) hue
        · exact hp12.hclosed w hw

/-! ### The vertex loop of `FindConnectedComponents` -/

/-- Reading a `getD` slot inside the first part of an append. -/
theorem getD_append_left {α : Type} (l1 l2 : List α) (s : Nat) (d : α)
    (h : s < l1.length) : (l1 ++ l2).getD s d = l1.getD s d := by
  induction l1 generalizing s with
  | nil => simp at h
  | cons a rest ih =>
      cases s with
      | zero => rfl
      | succ s =>
          simp only [List.cons_append, List.getD_cons_succ]
          exact ih s (by simpa using h)

/-- Reading the appended element itself. -/
theorem getD_append_self {α : Type} (l1 : List α) (x d : α) :
    (l1 ++ [x]).getD l1.length d = x := by
  induction l1 with
  | nil => rfl
  | cons a rest ih =>
      simpa only [List.cons_append, List.getD_cons_succ] using ih

/-- `getD` after a `drop`. -/
theorem getD_drop {α : Type} (l : List α) (m s : Nat) (d : α) :
    (l.drop m).getD s d = l.getD (m + s) d := by
  induction l generalizing m with
  | nil => simp
  | cons a rest ih =>
      cases m with
      | zero => simp
      | succ m =>
          simp only [List.drop_succ_cons, Nat.succ_add, List.getD_cons_succ]
          exact ih m

/-- An in-range `getD` slot is an element of the list. -/
theorem getD_mem {α : Type} (l : List α) (s : Nat) (d : α)
    (h : s < l.length) : l.getD s d ∈ l := by
  induction l generalizing s with
  | nil => simp at h
  | cons a rest ih =>
      cases s with
      | zero => exact List.mem_cons_self _ _
      | succ s =>
          simp only [List.getD_cons_succ]
          exact List.mem_cons_of_mem _ (ih s (by simpa using h))

/-- A `getD` slot of a list of lists sits inside the flattening. -/
theorem getD_subset_flatten {α : Type} (ls : List (List α)) (s : Nat)
    (hs : s < ls.length) : ∀ w ∈ ls.getD s [], w ∈ ls.flatten := by
  intro w hw
  exact List.mem_flatten.2 ⟨ls.getD s [], getD_mem _ _ _ hs, hw⟩

/-- With a duplicate-free flattening, an element of slot `s` that also
appears among the first `m` slots forces `s < m`. -/
theorem slot_lt_of_mem_take {α : Type} (ls : List (List α))
    (hnd : ls.flatten.Nodup) (s m : Nat) (hs : s < ls.length) (w : α)
    (hw : w ∈ ls.getD s [])
    (hm : w ∈ (ls.take m).flatten) : s < m := by
  by_contra hc
  push_neg at hc
  have hsplit : ls = ls.take m ++ ls.drop m := (List.take_append_drop m ls).symm
  have hflat : ls.flatten = (ls.take m).flatten ++ (ls.drop m).flatten := by
    conv_lhs => rw [hsplit]
    exact List.flatten_append _ _
  have hwdrop : w ∈ (ls.drop m).flatten := by
    have hgd : (ls.drop m).getD (s - m) [] = ls.getD s [] := by
      rw [getD_drop]
      congr 1
      omega
    apply getD_subset_flatten (ls.drop m) (s - m)
    · rw [List.length_drop]
      omega
    · rw [hgd]
      exact hw
  rw [hflat] at hnd
  exact (List.disjoint_of_nodup_append hnd) hm hwdrop

/-- One `ccStep` preserves the loop invariant, visits the processed index,
and never unvisits anything. -/
theorem ccStep_inv (g : Graph) (hwf : GraphWF g)
    {comps : List (List Int)} {data : List CCData} {cid : Int}
    {ls : List (List Nat)} (i : Nat) (hi : i < g.vertices.length)
    (h : TopInv g comps data ls) :
    ∃ ls', TopInv g (ccStep g (comps, data, cid) i).1
        (ccStep g (comps, data, cid) i).2.1 ls'
      ∧ visAt (ccStep g (comps, data, cid) i).2.1 i = true
      ∧ (∀ j, visAt data j = true →
          visAt (ccStep g (comps, data, cid) i).2.1 j = true) := by
  have hc : cdi g i = i := hwf.hcdi _ hi
  by_cases hv : (data.getD (cdi g i) default).visited = true
  · have hstep : ccStep g (comps, data, cid) i = (comps, data, cid) := by
      unfold ccStep
      simp only [hv, if_true]
    rw [hstep]
    refine ⟨ls, h, ?_, fun j hj => hj⟩
    unfold visAt
    rw [← hc]
    exact hv
  · have hfalse : visAt data i = false := by
      unfold visAt
      rw [← hc]
      simpa using hv
    have hcard : (unvis g.vertices.length data).card
        < g.vertices.length + 1 := by
      have hsub : unvis g.vertices.length data
          ⊆ Finset.range g.vertices.length := Finset.filter_subset _ _
      have := Finset.card_le_card hsub
      rw [Finset.card_range] at this
      omega
    obtain ⟨l1, hmem1, hp⟩ := ccDfs_ok g hwf (g.vertices.length + 1) i cid
      data h.hlen hi hfalse hcard
    rcases hd : ccDfs g (g.vertices.length + 1) i cid data with ⟨comp, data'⟩
    rw [hd] at hp
    have hpcomp : comp = l1.map (idOf g) := hp.hcomp
    have hplen : data'.length = data.length := hp.hlen
    have hne : comp.length > 0 := by
      rw [hpcomp, List.length_map]
      exact List.length_pos.2 (List.ne_nil_of_mem hmem1)
    have hstep : ccStep g (comps, data, cid) i
        = (comps ++ [comp], data', cid + 1) := by
      unfold ccStep
      simp only [hd]
      rw [if_neg hv, if_pos hne]
    rw [hstep]
    have hvis' : ∀ j, j ∈ (ls ++ [l1]).flatten ↔ visAt data' j = true := by
      intro j
      rw [List.flatten_append, List.mem_append]
      constructor
      · intro hj
        rcases hj with hj | hj
        · exact hp.hmono j ((h.hvis j).1 hj)
        · simp only [List.flatten_cons, List.flatten_nil,
            List.append_nil] at hj
          exact ((hp.hmem j).1 hj).2
      · intro hj
        by_cases hdj : visAt data j = true
        · exact Or.inl ((h.hvis j).2 hdj)
        · refine Or.inr ?_
          simp only [List.flatten_cons, List.flatten_nil, List.append_nil]
          exact (hp.hmem j).2 ⟨by simpa using hdj, hj⟩
    refine ⟨ls ++ [l1], ⟨?_, ?_, ?_, ?_, ?_, ?_⟩, ?_, ?_⟩
    · show data'.length = g.vertices.length
      rw [hplen, h.hlen]
    · rw [h.hcomps, hpcomp, List.map_append]
      rfl
    · rw [List.flatten_append]
      rw [List.nodup_append]
      refine ⟨h.hnodup, by
        simpa using hp.hnodup, ?_⟩
      intro a ha hb
      simp only [List.flatten_cons, List.flatten_nil, List.append_nil] at hb
      have h1 : visAt data a = true := (h.hvis a).1 ha
      have h2 : visAt data a = false := ((hp.hmem a).1 hb).1
      rw [h1] at h2
      exact Bool.noConfusion h2
    · exact hvis'
    · intro j hj
      rw [List.flatten_append, List.mem_append] at hj
      rcases hj with hj | hj
      · exact h.hbound j hj
      · simp only [List.flatten_cons, List.flatten_nil,
          List.append_nil] at hj
        exact hp.hbound j hj
    · intro s hs w hw
      rw [List.length_append, List.length_singleton] at hs
      by_cases hslt : s < ls.length
      · rw [getD_append_left _ _ _ _ hslt] at hw
        have htake : (ls ++ [l1]).take (s + 1) = ls.take (s + 1) :=
          List.take_append_of_le_length (by omega)
        rw [htake]
        exact h.hclosed s hslt w hw
      · have hseq : s = ls.length := by omega
        subst hseq
        rw [getD_append_self] at hw
        have htake : (ls ++ [l1]).take (ls.length + 1) = ls ++ [l1] := by
          have : (ls ++ [l1]).length = ls.length + 1 := by
            rw [List.length_append, List.length_singleton]
          rw [← this, List.take_length]
        rw [htake]
        obtain ⟨hout, hin⟩ := hp.hclosed w hw
        constructor
        · intro e he
          exact (hvis' _).2 (hout e he)
        · intro u hu hue
          exact (hvis' _).2 (hin u hu hue)
    · exact (hvis' i).1 ((getD_subset_flatten (ls ++ [l1]) ls.length
        (by rw [List.length_append, List.length_singleton]; omega)) i
        (by rw [getD_append_self]; exact hmem1))
    · intro j hj
      exact hp.hmono j hj

/-- The whole vertex loop preserves the invariant and visits every index
it processes. -/
theorem foldl_ccStep_inv (g : Graph) (hwf : GraphWF g) (ks : List Nat) :
    ∀ (comps : List (List Int)) (data : List CCData) (cid : Int)
      (ls : List (List Nat)),
    (∀ k ∈ ks, k < g.vertices.length) →
    TopInv g comps data ls →
    ∃ ls', TopInv g (ks.foldl (ccStep g) (comps, data, cid)).1
        (ks.foldl (ccStep g) (comps, data, cid)).2.1 ls'
      ∧ (∀ k ∈ ks,
          visAt (ks.foldl (ccStep g) (comps, data, cid)).2.1 k = true)
      ∧ (∀ j, visAt data j = true →
          visAt (ks.foldl (ccStep g) (comps, data, cid)).2.1 j = true) := by
  induction ks with
  | nil =>
      intro comps data cid ls hb h
      exact ⟨ls, h, by simp, fun j hj => hj⟩
  | cons k rest ih =>
      intro comps data cid ls hb h
      obtain ⟨ls1, h1, hvk, hmono1⟩ :=
        @ccStep_inv g hwf comps data cid ls k (hb k (by simp)) h
      rcases hsk : ccStep g (comps, data, cid) k with ⟨comps1, data1, cid1⟩
      have h1' : TopInv g comps1 data1 ls1 := by
        rw [hsk] at h1
        exact h1
      have hvk' : visAt data1 k = true := by
        rw [hsk] at hvk
        exact hvk
      have hmono1' : ∀ j, visAt data j = true → visAt data1 j = true := by
        intro j hj
        have := hmono1 j hj
        rw [hsk] at this
        exact this
      obtain ⟨ls', h', hall, hmono2⟩ := ih comps1 data1 cid1 ls1
        (fun k' hk' => hb k' (by simp [hk'])) h1'
      rw [List.foldl_cons, hsk]
      refine ⟨ls', h', ?_, ?_⟩
      · intro k' hk'
        rcases List.mem_cons.1 hk' with rfl | hk'
        · exact hmono2 k' hvk'
        · exact hall k' hk'
      · intro j hj
        exact hmono2 j (hmono1' j hj)

/-- The initial reset state satisfies the loop invariant vacuously. -/
theorem visAt_replicate (n : Nat) (i : Nat) (c : Int) :
    visAt (List.replicate n { visited := false, componentId := c }) i
      = false := by
  unfold visAt
  induction n generalizing i with
  | zero => rfl
  | succ n ih =>
      cases i with
      | zero => rfl
      | succ i =>
          rw [List.replicate_succ, List.getD_cons_succ]
          exact ih i

/-- Enumerating a vertex list by position recovers its identifier map. -/
theorem map_idOf_range_gen (l : List Vertex) :
    (List.range l.length).map (fun i => (l.getD i default).id)
      = l.map Vertex.id := by
  induction l with
  | nil => rfl
  | cons v rest ih =>
      rw [List.length_cons, List.range_succ_eq_map, List.map_cons,
        List.map_map, List.map_cons]
      refine congrArg₂ _ rfl ?_
      rw [← ih]
      apply List.map_congr_left
      intro i _
      rfl

/-- Membership in a flattening happens inside some indexed slot. -/
theorem mem_flatten_getD {α : Type} (ls : List (List α)) (w : α)
    (h : w ∈ ls.flatten) : ∃ s, s < ls.length ∧ w ∈ ls.getD s [] := by
  induction ls with
  | nil => simp at h
  | cons l rest ih =>
      rw [List.flatten_cons, List.mem_append] at h
      rcases h with h | h
      · exact ⟨0, by simp, h⟩
      · obtain ⟨s, hs, hw⟩ := ih h
        exact ⟨s + 1, by simpa using hs, by simpa using hw⟩

/-- The loop invariant holds at the end of `FindConnectedComponents`, with
every vertex visited. -/
theorem findConnectedComponents_inv (g : Graph) (hwf : GraphWF g) :
    ∃ ls', TopInv g (findConnectedComponents g)
        ((List.range g.vertices.length).foldl (ccStep g)
          ([], List.replicate g.vertices.length
            { visited := false, componentId := -1 }, 0)).2.1 ls'
      ∧ ∀ k < g.vertices.length,
          visAt ((List.range g.vertices.length).foldl (ccStep g)
            ([], List.replicate g.vertices.length
              { visited := false, componentId := -1 }, 0)).2.1 k = true := by
  have h0 : TopInv g []
      (List.replicate g.vertices.length
        { visited := false, componentId := -1 }) [] := by
    refine ⟨List.length_replicate _ _, rfl, List.nodup_nil, ?_, ?_, ?_⟩
    · intro i
      simp only [List.flatten_nil, List.not_mem_nil, false_iff,
        visAt_replicate]
      intro hcon
      exact Bool.noConfusion hcon
    · intro i hi
      simp at hi
    · intro s hs
      simp at hs
  obtain ⟨ls', h', hall, _⟩ := foldl_ccStep_inv g hwf
    (List.range g.vertices.length) [] _ 0 []
    (fun k hk => List.mem_range.1 hk) h0
  exact ⟨ls', h', fun k hk => hall k (List.mem_range.2 hk)⟩

/-- C10: the component lists of `GetComponents()` partition the graph's
vertex identifiers — their concatenation is a permutation of the vertex
identifier list, so with duplicate-free identifiers every identifier of the
graph occurs in exactly one inner list exactly once, and nothing else
occurs. -/
theorem C10_components_partition (g : Graph) (hwf : GraphWF g) :
    (findConnectedComponents g).flatten.Perm (g.vertices.map Vertex.id)
    ∧ ((g.vertices.map Vertex.id).Nodup →
        ∀ x : Int, (findConnectedComponents g).flatten.count x
          = if x ∈ g.vertices.map Vertex.id then 1 else 0) := by
  obtain ⟨ls', h', hall⟩ := findConnectedComponents_inv g hwf
  have hperm0 : ls'.flatten.Perm (List.range g.vertices.length) := by
    apply List.perm_of_nodup_nodup_toFinset_eq h'.hnodup (List.nodup_range _)
    ext i
    simp only [List.mem_toFinset, List.mem_range]
    constructor
    · intro hi
      exact h'.hbound i hi
    · intro hi
      exact (h'.hvis i).2 (hall i hi)
  have hflat : (findConnectedComponents g).flatten
      = ls'.flatten.map (idOf g) := by
    rw [h'.hcomps, ← List.map_flatten]
  have hperm : (findConnectedComponents g).flatten.Perm
      (g.vertices.map Vertex.id) := by
    rw [hflat, ← map_idOf_range_gen]
    exact hperm0.map (idOf g)
  refine ⟨hperm, ?_⟩
  intro hnd x
  rw [hperm.count_eq]
  by_cases hx : x ∈ g.vertices.map Vertex.id
  · rw [if_pos hx]
    exact List.count_eq_one_of_mem hnd hx
  · rw [if_neg hx]
    exact List.count_eq_zero_of_not_mem hx

/-- Closed witness for C10 at the concrete stale-heap graph. -/
theorem C10_witness :
    (findConnectedComponents staleHeapGraph).flatten.count 2
      = if (2 : Int) ∈ staleHeapGraph.vertices.map Vertex.id then 1
        else 0 :=
  (C10_components_partition staleHeapGraph
    ⟨by decide, by decide, by decide⟩).2 (by decide) 2

/-- C7: a single directed edge suffices to merge its endpoints into one
weakly connected component: for every graph and every edge from the vertex
at index `u`, some component list contains both endpoint identifiers. -/
theorem C7_directed_edge_same_component (g : Graph) (hwf : GraphWF g)
    (u : Nat) (hu : u < getVertexCount g) (e : Edge)
    (he : e ∈ edgesOf g u) :
    ∃ comp ∈ findConnectedComponents g,
      idOf g u ∈ comp ∧ idOf g e.targetVertex ∈ comp := by
  obtain ⟨ls', h', hall⟩ := findConnectedComponents_inv g hwf
  have ht : e.targetVertex < g.vertices.length := hwf.htarget u hu e he
  have humem : u ∈ ls'.flatten := (h'.hvis u).2 (hall u hu)
  have htmem : e.targetVertex ∈ ls'.flatten :=
    (h'.hvis e.targetVertex).2 (hall e.targetVertex ht)
  obtain ⟨s, hs, hus⟩ := mem_flatten_getD ls' u humem
  obtain ⟨s', hs', hts⟩ := mem_flatten_getD ls' e.targetVertex htmem
  have hstep1 : s' < s + 1 := by
    have := (h'.hclosed s hs u hus).1 e he
    exact slot_lt_of_mem_take ls' h'.hnodup s' (s + 1) hs' _ hts this
  have hstep2 : s < s' + 1 := by
    have hedge : hasEdgeToIdx g u e.targetVertex = true := by
      unfold hasEdgeToIdx
      rw [List.any_eq_true]
      exact ⟨e, he, by simp⟩
    have := (h'.hclosed s' hs' e.targetVertex hts).2 u hu hedge
    exact slot_lt_of_mem_take ls' h'.hnodup s (s' + 1) hs _ hus this
  have hss : s = s' := by omega
  subst hss
  refine ⟨(ls'.getD s []).map (idOf g), ?_, ?_, ?_⟩
  · rw [h'.hcomps]
    have : (ls'.map (List.map (idOf g))).getD s []
        = (ls'.getD s []).map (idOf g) := by
      rw [List.getD_eq_getElem?_getD, List.getD_eq_getElem?_getD,
        List.getElem?_map]
      rw [List.getElem?_eq_getElem hs]
      rfl
    rw [← this]
    exact getD_mem _ _ _ (by rw [List.length_map]; exact hs)
  · exact List.mem_map_of_mem _ hus
  · exact List.mem_map_of_mem _ hts

/-- Closed witness for C7 at the concrete stale-heap graph and its edge
from vertex index 0 (identifier 1) to index 1 (identifier 2). -/
theorem C7_witness :
    ∃ comp ∈ findConnectedComponents staleHeapGraph,
      idOf staleHeapGraph 0 ∈ comp
      ∧ idOf staleHeapGraph
          ({ cost := 1, targetVertex := 1, customDataIndex := 0 } :
            Edge).targetVertex ∈ comp :=
  C7_directed_edge_same_component staleHeapGraph
    ⟨by decide, by decide, by decide⟩ 0 (by decide)
    { cost := 1, targetVertex := 1, customDataIndex := 0 } (by decide)


/-! ### C8: the depth-first traversal (dfs.go via CONTRIBUTING.md) -/

/-- A `Bool` that is not `true` is `false`. -/
theorem bool_eq_false {b : Bool} (h : ¬ b = true) : b = false := by
  cases b
  · rfl
  · exact absurd rfl h

/-- A successful association-list lookup exhibits a stored pair. -/
theorem lookupIdx_mem (m : List (Int × Nat)) (x : Int) (i : Nat)
    (h : lookupIdx m x = some i) : (x, i) ∈ m := by
  induction m with
  | nil => exact absurd h (by simp [lookupIdx])
  | cons p rest ih =>
    rcases p with ⟨k, v⟩
    by_cases hk : k = x
    · rw [lookupIdx, if_pos hk] at h
      subst hk
      cases h
      exact List.mem_cons_self _ _
    · rw [lookupIdx, if_neg hk] at h
      exact List.mem_cons_of_mem _ (ih h)

/-- The visited-flag view has the scratch array's length. -/
theorem visView_length (data : List DFSData) :
    (visView data).length = data.length := by
  simp [visView]

/-- Reading the visited-flag view is reading the `visited` field. -/
theorem visView_getD (data : List DFSData) : ∀ i : Nat,
    (visView data).getD i false = (data.getD i default).visited := by
  induction data with
  | nil => intro i; cases i <;> rfl
  | cons d rest ih =>
    intro i
    cases i with
    | zero => rfl
    | succ j => exact ih j

/-- Marking a record visited sets the corresponding view flag. -/
theorem visView_updL_visited (data : List DFSData) : ∀ i : Nat,
    visView (updL data i fun d => { d with visited := true })
      = setL (visView data) i true := by
  induction data with
  | nil => intro i; rfl
  | cons d rest ih =>
    intro i
    cases i with
    | zero => rfl
    | succ j => exact congrArg (List.cons d.visited) (ih j)

/-- Writing a parent pointer leaves the visited-flag view unchanged. -/
theorem visView_updL_parent (data : List DFSData) (p : Nat) : ∀ i : Nat,
    visView (updL data i fun d => { d with parent := some p })
      = visView data := by
  induction data with
  | nil => intro i; rfl
  | cons d rest ih =>
    intro i
    cases i with
    | zero => rfl
    | succ j => exact congrArg (List.cons d.visited) (ih j)

/-- The view of the freshly reset scratch array is all-`false`. -/
theorem visView_replicate (n : Nat) :
    visView (List.replicate n
      { visited := false, parent := none, visiting := false })
      = List.replicate n false := by
  simp [visView, List.map_replicate]

/-- Marking an in-range unvisited vertex removes it from the unvisited set. -/
theorem unvisB_setL (n : Nat) (vis : List Bool) (v : Nat)
    (hlen : vis.length = n) (hv : v < n) :
    unvisB n (setL vis v true) = (unvisB n vis).erase v := by
  unfold unvisB
  ext i
  simp only [Finset.mem_filter, Finset.mem_range, Finset.mem_erase]
  constructor
  · rintro ⟨hi, hgd⟩
    by_cases hiv : v = i
    · subst hiv
      rw [getD_setL_self _ _ _ _ (by omega)] at hgd
      exact absurd hgd (by simp)
    · rw [getD_setL_ne _ _ _ hiv] at hgd
      exact ⟨fun hh => hiv hh.symm, hi, hgd⟩
  · rintro ⟨hiv, hi, hgd⟩
    refine ⟨hi, ?_⟩
    rw [getD_setL_ne _ _ _ (fun hh => hiv hh.symm)]
    exact hgd

/-- A visited-flag list that marks no fewer vertices has no larger
unvisited set. -/
theorem unvisB_subset (n : Nat) (vis vis2 : List Bool)
    (h : ∀ i, vis.getD i false = true → vis2.getD i false = true) :
    unvisB n vis2 ⊆ unvisB n vis := by
  intro i hi
  unfold unvisB at hi ⊢
  simp only [Finset.mem_filter, Finset.mem_range] at hi ⊢
  rcases hi with ⟨hin, hun⟩
  refine ⟨hin, ?_⟩
  cases hgd : vis.getD i false with
  | false => rfl
  | true => rw [h i hgd] at hun; simp at hun

/-- Processing an unvisited in-range vertex spends exactly one unit of the
traversal potential when all its edges are pushed. -/
theorem dfsPotential_mark (g : Graph) (rest : List (Nat × Option Edge))
    (vis : List Bool) (c : Nat) (e : Option Edge)
    (hlen : vis.length = g.vertices.length)
    (hc : c < g.vertices.length)
    (hunvis : vis.getD c false = false) :
    dfsPotential g
        ((edgesOf g c).map (fun e2 => (e2.targetVertex, some e2)) ++ rest)
        (setL vis c true) + 1
      = dfsPotential g ((c, e) :: rest) vis := by
  unfold dfsPotential
  rw [unvisB_setL _ _ _ hlen hc]
  have hcmem : c ∈ unvisB g.vertices.length vis := by
    unfold unvisB
    simp only [Finset.mem_filter, Finset.mem_range]
    exact ⟨hc, hunvis⟩
  have hsum := Finset.sum_erase_add (unvisB g.vertices.length vis)
    (outDeg g) hcmem
  simp only [List.length_append, List.length_map, List.length_cons]
  unfold outDeg at hsum ⊢
  omega

/-- The empty-agenda equation of the specification preorder machine. -/
theorem dfsPreorder_nil (g : Graph) (fuel : Nat) (vis : List Bool) :
    dfsPreorder g fuel [] vis = ([], vis) := by
  cases fuel <;> rfl

/-- The visited-skip equation of the specification preorder machine. -/
theorem dfsPreorder_skip (g : Graph) (fuel : Nat) (c : Nat) (e : Option Edge)
    (rest : List (Nat × Option Edge)) (vis : List Bool)
    (h : vis.getD c false = true) :
    dfsPreorder g (fuel + 1) ((c, e) :: rest) vis
      = dfsPreorder g fuel rest vis := by
  rw [dfsPreorder, if_pos h]

/-- The visit equation of the specification preorder machine. -/
theorem dfsPreorder_mark (g : Graph) (fuel : Nat) (c : Nat) (e : Option Edge)
    (rest : List (Nat × Option Edge)) (vis : List Bool)
    (h : vis.getD c false = false) :
    dfsPreorder g (fuel + 1) ((c, e) :: rest) vis
      = ((c, e) :: (dfsPreorder g fuel
            ((edgesOf g c).map (fun e2 => (e2.targetVertex, some e2)) ++ rest)
            (setL vis c true)).1,
         (dfsPreorder g fuel
            ((edgesOf g c).map (fun e2 => (e2.targetVertex, some e2)) ++ rest)
            (setL vis c true)).2) := by
  rcases hd : dfsPreorder g fuel
      ((edgesOf g c).map (fun e2 => (e2.targetVertex, some e2)) ++ rest)
      (setL vis c true) with ⟨out, vis2⟩
  rw [dfsPreorder, if_neg (by rw [h]; decide), hd]

/-- The preorder machine preserves the length of the flag list. -/
theorem dfsPreorder_len (g : Graph) : ∀ fuel agenda vis,
    ((dfsPreorder g fuel agenda vis).2).length = vis.length := by
  intro fuel
  induction fuel with
  | zero => intro agenda vis; cases agenda <;> rfl
  | succ fuel ih =>
    intro agenda vis
    cases agenda with
    | nil => rfl
    | cons a rest =>
      rcases a with ⟨c, e⟩
      by_cases hv : vis.getD c false = true
      · rw [dfsPreorder_skip g fuel c e rest vis hv]
        exact ih rest vis
      · rw [dfsPreorder_mark g fuel c e rest vis (bool_eq_false hv)]
        show (dfsPreorder g fuel
            ((edgesOf g c).map (fun e2 => (e2.targetVertex, some e2)) ++ rest)
            (setL vis c true)).2.length = vis.length
        rw [ih, setL_length]

/-- Visited flags only ever turn on along the preorder machine. -/
theorem dfsPreorder_mono (g : Graph) : ∀ fuel agenda vis (i : Nat),
    vis.getD i false = true →
    ((dfsPreorder g fuel agenda vis).2).getD i false = true := by
  intro fuel
  induction fuel with
  | zero => intro agenda vis i h; cases agenda <;> exact h
  | succ fuel ih =>
    intro agenda vis i h
    cases agenda with
    | nil => exact h
    | cons a rest =>
      rcases a with ⟨c, e⟩
      by_cases hv : vis.getD c false = true
      · rw [dfsPreorder_skip g fuel c e rest vis hv]
        exact ih rest vis i h
      · rw [dfsPreorder_mark g fuel c e rest vis (bool_eq_false hv)]
        refine ih _ _ i ?_
        by_cases hic : c = i
        · subst hic; exact absurd h hv
        · rw [getD_setL_ne _ _ _ hic]; exact h

/-- One extra unit of fuel is invisible once the potential fits. -/
theorem dfsPreorder_fuel_succ (g : Graph) (hwf : GraphWF g) :
    ∀ fuel agenda vis,
      (∀ it ∈ agenda, it.1 < g.vertices.length) →
      vis.length = g.vertices.length →
      dfsPotential g agenda vis ≤ fuel →
      dfsPreorder g (fuel + 1) agenda vis = dfsPreorder g fuel agenda vis := by
  intro fuel
  induction fuel with
  | zero =>
    intro agenda vis hb hlen hfuel
    cases agenda with
    | nil => rfl
    | cons a rest =>
      exfalso
      unfold dfsPotential at hfuel
      simp only [List.length_cons] at hfuel
      omega
  | succ fuel ih =>
    intro agenda vis hb hlen hfuel
    cases agenda with
    | nil => rw [dfsPreorder_nil, dfsPreorder_nil]
    | cons a rest =>
      rcases a with ⟨c, e⟩
      by_cases hv : vis.getD c false = true
      · rw [dfsPreorder_skip _ _ _ _ _ _ hv, dfsPreorder_skip _ _ _ _ _ _ hv]
        refine ih rest vis (fun it hit => hb it (List.mem_cons_of_mem _ hit))
          hlen ?_
        unfold dfsPotential at hfuel ⊢
        simp only [List.length_cons] at hfuel
        omega
      · have hv2 := bool_eq_false hv
        rw [dfsPreorder_mark _ _ _ _ _ _ hv2, dfsPreorder_mark _ _ _ _ _ _ hv2]
        have hc : c < g.vertices.length := hb (c, e) (List.mem_cons_self _ _)
        have hpot := dfsPotential_mark g rest vis c e hlen hc hv2
        have hb2 : ∀ it ∈ (edgesOf g c).map
            (fun e2 => (e2.targetVertex, some e2)) ++ rest,
            it.1 < g.vertices.length := by
          intro it hit
          rcases List.mem_append.1 hit with hit | hit
          · rcases List.mem_map.1 hit with ⟨e2, he2, rfl⟩
            exact hwf.htarget c hc e2 he2
          · exact hb it (List.mem_cons_of_mem _ hit)
        have hlen2 : (setL vis c true).length = g.vertices.length := by
          rw [setL_length]; exact hlen
        rw [ih _ _ hb2 hlen2 (by omega)]

/-- Any two sufficient fuels give the same preorder run. -/
theorem dfsPreorder_fuel_le (g : Graph) (hwf : GraphWF g)
    (agenda : List (Nat × Option Edge)) (vis : List Bool)
    (hb : ∀ it ∈ agenda, it.1 < g.vertices.length)
    (hlen : vis.length = g.vertices.length)
    {f1 f2 : Nat} (h1 : dfsPotential g agenda vis ≤ f1) (h12 : f1 ≤ f2) :
    dfsPreorder g f2 agenda vis = dfsPreorder g f1 agenda vis := by
  have key : ∀ k, dfsPreorder g (f1 + k) agenda vis
      = dfsPreorder g f1 agenda vis := by
    intro k
    induction k with
    | zero => rfl
    | succ k ih =>
      have hstep : f1 + (k + 1) = (f1 + k) + 1 := rfl
      rw [hstep, dfsPreorder_fuel_succ g hwf (f1 + k) agenda vis hb hlen
        (le_trans h1 (Nat.le_add_right _ _)), ih]
  obtain ⟨k, rfl⟩ := Nat.exists_eq_add_of_le h12
  exact key k


/-- Reading `true` under default `false` only happens in range. -/
theorem lt_length_of_getD_true (vis : List Bool) : ∀ i : Nat,
    vis.getD i false = true → i < vis.length := by
  induction vis with
  | nil => intro i h; cases i <;> exact Bool.noConfusion h
  | cons b rest ih =>
    intro i h
    cases i with
    | zero => exact Nat.succ_pos _
    | succ j => exact Nat.succ_lt_succ (ih j h)

/-- Setting a flag to `true` preserves every flag that was `true`. -/
theorem getD_setL_true_mono (vis : List Bool) (c i : Nat)
    (h : vis.getD i false = true) :
    (setL vis c true).getD i false = true := by
  by_cases hic : c = i
  · subst hic
    exact getD_setL_self _ _ _ _ (lt_length_of_getD_true vis c h)
  · rw [getD_setL_ne _ _ _ hic]
    exact h

/-- The potential of a later agenda at the evolved flags is at most the
potential of the combined agenda at the original flags. -/
theorem dfsPotential_after_le (g : Graph) (fuel : Nat)
    (a b : List (Nat × Option Edge)) (vis : List Bool) :
    dfsPotential g b (dfsPreorder g fuel a vis).2
      ≤ dfsPotential g (a ++ b) vis := by
  unfold dfsPotential
  have hsub := unvisB_subset g.vertices.length vis
    ((dfsPreorder g fuel a vis).2) (dfsPreorder_mono g fuel a vis)
  have hsum : ∑ i ∈ unvisB g.vertices.length (dfsPreorder g fuel a vis).2,
      outDeg g i ≤ ∑ i ∈ unvisB g.vertices.length vis, outDeg g i :=
    Finset.sum_le_sum_of_subset hsub
  simp only [List.length_append]
  omega

/-- Running a concatenated agenda is running the first part, then the
second from the resulting flags. -/
theorem dfsPreorder_append (g : Graph) (hwf : GraphWF g) :
    ∀ fuel a b vis,
      (∀ it ∈ a ++ b, it.1 < g.vertices.length) →
      vis.length = g.vertices.length →
      dfsPotential g (a ++ b) vis ≤ fuel →
      dfsPreorder g fuel (a ++ b) vis
        = ((dfsPreorder g fuel a vis).1
            ++ (dfsPreorder g fuel b (dfsPreorder g fuel a vis).2).1,
           (dfsPreorder g fuel b (dfsPreorder g fuel a vis).2).2) := by
  intro fuel
  induction fuel with
  | zero =>
    intro a b vis hb hlen hfuel
    have hab : a ++ b = [] := by
      cases hab : a ++ b with
      | nil => rfl
      | cons x xs =>
        exfalso
        unfold dfsPotential at hfuel
        rw [hab] at hfuel
        simp only [List.length_cons] at hfuel
        omega
    rcases List.append_eq_nil.1 hab with ⟨rfl, rfl⟩
    rfl
  | succ fuel ih =>
    intro a b vis hb hlen hfuel
    cases a with
    | nil =>
      simp only [List.nil_append] at hb hfuel ⊢
      rw [dfsPreorder_nil]
      rfl
    | cons hd tl =>
      rcases hd with ⟨c, e⟩
      simp only [List.cons_append] at hb hfuel ⊢
      by_cases hv : vis.getD c false = true
      · rw [dfsPreorder_skip _ _ _ _ _ _ hv, dfsPreorder_skip _ _ _ _ _ _ hv]
        have hb2 : ∀ it ∈ tl ++ b, it.1 < g.vertices.length :=
          fun it hit => hb it (List.mem_cons_of_mem _ hit)
        have hfuel2 : dfsPotential g (tl ++ b) vis ≤ fuel := by
          unfold dfsPotential at hfuel ⊢
          simp only [List.length_cons] at hfuel
          omega
        rw [ih tl b vis hb2 hlen hfuel2]
        have hbb : ∀ it ∈ b, it.1 < g.vertices.length :=
          fun it hit => hb2 it (List.mem_append_right _ hit)
        have hlen2 : ((dfsPreorder g fuel tl vis).2).length
            = g.vertices.length := by
          rw [dfsPreorder_len]; exact hlen
        have hpb : dfsPotential g b (dfsPreorder g fuel tl vis).2 ≤ fuel :=
          le_trans (dfsPotential_after_le g fuel tl b vis) hfuel2
        rw [dfsPreorder_fuel_succ g hwf fuel b _ hbb hlen2 hpb]
      · have hv2 := bool_eq_false hv
        rw [dfsPreorder_mark _ _ _ _ _ _ hv2, dfsPreorder_mark _ _ _ _ _ _ hv2]
        have hc : c < g.vertices.length := hb (c, e) (List.mem_cons_self _ _)
        have hpot := dfsPotential_mark g (tl ++ b) vis c e hlen hc hv2
        have hassoc : (edgesOf g c).map (fun e2 => (e2.targetVertex, some e2))
            ++ (tl ++ b)
            = ((edgesOf g c).map (fun e2 => (e2.targetVertex, some e2)) ++ tl)
              ++ b := (List.append_assoc _ _ _).symm
        rw [hassoc]
        have hb2 : ∀ it ∈ ((edgesOf g c).map
            (fun e2 => (e2.targetVertex, some e2)) ++ tl) ++ b,
            it.1 < g.vertices.length := by
          intro it hit
          rcases List.mem_append.1 hit with hit | hit
          · rcases List.mem_append.1 hit with hit | hit
            · rcases List.mem_map.1 hit with ⟨e2, he2, rfl⟩
              exact hwf.htarget c hc e2 he2
            · exact hb it (List.mem_cons_of_mem _ (List.mem_append_left _ hit))
          · exact hb it (List.mem_cons_of_mem _ (List.mem_append_right _ hit))
        have hlen1 : (setL vis c true).length = g.vertices.length := by
          rw [setL_length]; exact hlen
        have hfuel1 : dfsPotential g
            (((edgesOf g c).map (fun e2 => (e2.targetVertex, some e2)) ++ tl)
              ++ b) (setL vis c true) ≤ fuel := by
          unfold dfsPotential at hpot hfuel ⊢
          simp only [List.length_append, List.length_cons, List.length_map]
            at hpot hfuel ⊢
          omega
        rw [ih _ b _ hb2 hlen1 hfuel1]
        have hbb : ∀ it ∈ b, it.1 < g.vertices.length :=
          fun it hit => hb2 it (List.mem_append_right _ hit)
        have hlen2 : ((dfsPreorder g fuel
            ((edgesOf g c).map (fun e2 => (e2.targetVertex, some e2)) ++ tl)
            (setL vis c true)).2).length = g.vertices.length := by
          rw [dfsPreorder_len]; exact hlen1
        have hpb : dfsPotential g b
            (dfsPreorder g fuel
              ((edgesOf g c).map (fun e2 => (e2.targetVertex, some e2)) ++ tl)
              (setL vis c true)).2 ≤ fuel :=
          le_trans (dfsPotential_after_le g fuel _ b _) hfuel1
        rw [dfsPreorder_fuel_succ g hwf fuel b _ hbb hlen2 hpb,
          List.cons_append]

/-- Dropping already-visited agenda items does not change the run: the
machine would skip them anyway. -/
theorem dfsPreorder_filter_absorb (g : Graph) (hwf : GraphWF g) :
    ∀ (children : List (Nat × Option Edge)) (p : Nat × Option Edge → Bool)
      (fuel : Nat) (vis : List Bool),
      (∀ it ∈ children, it.1 < g.vertices.length) →
      vis.length = g.vertices.length →
      (∀ it ∈ children, p it = false → vis.getD it.1 false = true) →
      dfsPotential g children vis ≤ fuel →
      dfsPreorder g fuel (children.filter p) vis
        = dfsPreorder g fuel children vis := by
  intro children
  induction children with
  | nil =>
    intro p fuel vis _ _ _ _
    rw [List.filter_nil]
  | cons c cs ih =>
    intro p fuel vis hb hlen hdrop hfuel
    have hone : 1 ≤ fuel := by
      unfold dfsPotential at hfuel
      simp only [List.length_cons] at hfuel
      omega
    obtain ⟨f, rfl⟩ : ∃ f, fuel = f + 1 := ⟨fuel - 1, by omega⟩
    rcases c with ⟨c1, ce⟩
    have hc1 : c1 < g.vertices.length := hb (c1, ce) (List.mem_cons_self _ _)
    have hbcs : ∀ it ∈ cs, it.1 < g.vertices.length :=
      fun it hit => hb it (List.mem_cons_of_mem _ hit)
    have hbfcs : ∀ it ∈ cs.filter p, it.1 < g.vertices.length :=
      fun it hit => hbcs it (List.mem_filter.1 hit).1
    have hdropcs : ∀ it ∈ cs, p it = false → vis.getD it.1 false = true :=
      fun it hit => hdrop it (List.mem_cons_of_mem _ hit)
    have hfcs_le : (cs.filter p).length ≤ cs.length :=
      List.length_filter_le _ _
    by_cases hp : p (c1, ce) = true
    · rw [List.filter_cons, if_pos hp]
      by_cases hv : vis.getD c1 false = true
      · rw [dfsPreorder_skip _ _ _ _ _ _ hv, dfsPreorder_skip _ _ _ _ _ _ hv]
        refine ih p f vis hbcs hlen hdropcs ?_
        unfold dfsPotential at hfuel ⊢
        simp only [List.length_cons] at hfuel
        omega
      · have hv2 := bool_eq_false hv
        rw [dfsPreorder_mark _ _ _ _ _ _ hv2, dfsPreorder_mark _ _ _ _ _ _ hv2]
        have hpot := dfsPotential_mark g cs vis c1 ce hlen hc1 hv2
        set ch := (edgesOf g c1).map (fun e2 => (e2.targetVertex, some e2))
          with hch
        have hbch : ∀ it ∈ ch, it.1 < g.vertices.length := by
          intro it hit
          rcases List.mem_map.1 hit with ⟨e2, he2, rfl⟩
          exact hwf.htarget c1 hc1 e2 he2
        have hlenv1 : (setL vis c1 true).length = g.vertices.length := by
          rw [setL_length]; exact hlen
        have hfchcs : dfsPotential g (ch ++ cs) (setL vis c1 true) ≤ f := by
          omega
        have hfchf : dfsPotential g (ch ++ cs.filter p)
            (setL vis c1 true) ≤ f := by
          unfold dfsPotential at hfchcs ⊢
          simp only [List.length_append] at hfchcs ⊢
          omega
        have hbound1 : ∀ it ∈ ch ++ cs.filter p,
            it.1 < g.vertices.length := by
          intro it hit
          rcases List.mem_append.1 hit with hit | hit
          · exact hbch it hit
          · exact hbfcs it hit
        have hbound2 : ∀ it ∈ ch ++ cs, it.1 < g.vertices.length := by
          intro it hit
          rcases List.mem_append.1 hit with hit | hit
          · exact hbch it hit
          · exact hbcs it hit
        rw [dfsPreorder_append g hwf f ch (cs.filter p) _ hbound1 hlenv1
            hfchf,
          dfsPreorder_append g hwf f ch cs _ hbound2 hlenv1 hfchcs]
        have hrec : dfsPreorder g f (cs.filter p)
              (dfsPreorder g f ch (setL vis c1 true)).2
            = dfsPreorder g f cs
              (dfsPreorder g f ch (setL vis c1 true)).2 := by
          refine ih p f _ hbcs ?_ ?_ ?_
          · rw [dfsPreorder_len]; exact hlenv1
          · intro it hit hpf
            exact dfsPreorder_mono g f ch (setL vis c1 true) it.1
              (getD_setL_true_mono vis c1 it.1 (hdropcs it hit hpf))
          · exact le_trans (dfsPotential_after_le g f ch cs _) hfchcs
        rw [hrec]
    · have hp2 : p (c1, ce) = false := bool_eq_false hp
      have hv : vis.getD c1 false = true :=
        hdrop (c1, ce) (List.mem_cons_self _ _) hp2
      rw [List.filter_cons, if_neg (by rw [hp2]; decide)]
      rw [dfsPreorder_skip _ _ _ _ _ _ hv]
      have hfuel_cs : dfsPotential g cs vis ≤ f := by
        unfold dfsPotential at hfuel ⊢
        simp only [List.length_cons] at hfuel
        omega
      have hfilter_pot : dfsPotential g (cs.filter p) vis ≤ f := by
        unfold dfsPotential at hfuel_cs ⊢
        omega
      rw [dfsPreorder_fuel_le g hwf (cs.filter p) vis hbfcs hlen hfilter_pot
        (Nat.le_succ f)]
      exact ih p f vis hbcs hlen hdropcs hfuel_cs


/-- A `Bool` whose negation is `false` is `true`. -/
theorem bool_of_not_eq_false {b : Bool} (h : (!b) = false) : b = true := by
  cases b
  · exact Bool.noConfusion h
  · rfl

/-- `dfsPush` skips a visited neighbor. -/
theorem dfsPush_visited (g : Graph) (current : Nat)
    (st : List (Nat × Option Edge)) (data : List DFSData) (e : Edge)
    (h : (data.getD (cdi g e.targetVertex) default).visited = true) :
    dfsPush g current (st, data) e = (st, data) := by
  unfold dfsPush
  simp only []
  rw [if_pos h]

/-- `dfsPush` pushes an unvisited neighbor and records its parent. -/
theorem dfsPush_unvisited (g : Graph) (current : Nat)
    (st : List (Nat × Option Edge)) (data : List DFSData) (e : Edge)
    (h : (data.getD (cdi g e.targetVertex) default).visited = false) :
    dfsPush g current (st, data) e
      = ((e.targetVertex, some e) :: st,
         updL data (cdi g e.targetVertex)
           fun d => { d with parent := some current }) := by
  unfold dfsPush
  simp only []
  rw [if_neg (by rw [h]; decide)]

/-- The neighbor fold pushes exactly the unvisited targets in stored order
and changes only parent pointers, never visited flags. -/
theorem dfsPushFold (g : Graph) (current : Nat) :
    ∀ (edges : List Edge) (data : List DFSData),
      (edges.foldr (fun e acc => dfsPush g current acc e) ([], data)).1
        = (edges.filter (fun e =>
            !(data.getD (cdi g e.targetVertex) default).visited)).map
            (fun e => (e.targetVertex, some e))
      ∧ visView (edges.foldr (fun e acc => dfsPush g current acc e)
          ([], data)).2 = visView data
      ∧ (edges.foldr (fun e acc => dfsPush g current acc e)
          ([], data)).2.length = data.length := by
  intro edges
  induction edges with
  | nil => intro data; exact ⟨rfl, rfl, rfl⟩
  | cons e es ih =>
    intro data
    obtain ⟨h1, h2, h3⟩ := ih data
    rcases hr : es.foldr (fun e2 acc => dfsPush g current acc e2) ([], data)
      with ⟨st, d⟩
    rw [hr] at h1 h2 h3
    have hfold : (e :: es).foldr (fun e2 acc => dfsPush g current acc e2)
        ([], data) = dfsPush g current (st, d) e := by
      rw [List.foldr_cons, hr]
    have hvis : (d.getD (cdi g e.targetVertex) default).visited
        = (data.getD (cdi g e.targetVertex) default).visited := by
      rw [← visView_getD, ← visView_getD, h2]
    by_cases hv : (data.getD (cdi g e.targetVertex) default).visited = true
    · have hv2 : (d.getD (cdi g e.targetVertex) default).visited = true := by
        rw [hvis]; exact hv
      rw [hfold, dfsPush_visited g current st d e hv2]
      refine ⟨?_, h2, h3⟩
      rw [List.filter_cons, if_neg (by rw [hv]; decide), ← h1]
    · have hvf := bool_eq_false hv
      have hv2 : (d.getD (cdi g e.targetVertex) default).visited = false := by
        rw [hvis]; exact hvf
      rw [hfold, dfsPush_unvisited g current st d e hv2]
      refine ⟨?_, ?_, ?_⟩
      · show (e.targetVertex, some e) :: st = _
        rw [List.filter_cons, if_pos (by rw [hvf]; decide), List.map_cons,
          ← h1]
      · show visView (updL d (cdi g e.targetVertex)
            fun d2 => { d2 with parent := some current }) = visView data
        rw [visView_updL_parent]
        exact h2
      · show (updL d (cdi g e.targetVertex)
            fun d2 => { d2 with parent := some current }).length = data.length
        rw [updL_length]
        exact h3

/-- The implementation's visited filter over edges is the flag filter over
the corresponding agenda items. -/
theorem pushed_as_filter (g : Graph) (hwf : GraphWF g) (vis1 : List Bool) :
    ∀ (edges : List Edge),
      (∀ e ∈ edges, e.targetVertex < g.vertices.length) →
      ∀ (data1 : List DFSData), visView data1 = vis1 →
      (edges.filter (fun e =>
          !(data1.getD (cdi g e.targetVertex) default).visited)).map
          (fun e => (e.targetVertex, some e))
        = ((edges.map (fun e => (e.targetVertex, some e))).filter
            (fun it => !(vis1.getD it.1 false))) := by
  intro edges
  induction edges with
  | nil => intro _ data1 _; rfl
  | cons e es ih =>
    intro hb data1 hview
    have ht : e.targetVertex < g.vertices.length :=
      hb e (List.mem_cons_self _ _)
    have hcond : (data1.getD (cdi g e.targetVertex) default).visited
        = vis1.getD e.targetVertex false := by
      rw [← visView_getD, hview, hwf.hcdi e.targetVertex ht]
    have hes := ih (fun e2 he2 => hb e2 (List.mem_cons_of_mem _ he2))
      data1 hview
    rw [List.map_cons, List.filter_cons, List.filter_cons]
    by_cases hv : vis1.getD e.targetVertex false = true
    · rw [if_neg (by rw [hcond, hv]; decide),
        if_neg (by rw [hv]; decide), hes]
    · have hvf := bool_eq_false hv
      rw [if_pos (by rw [hcond, hvf]; decide),
        if_pos (by rw [hvf]; decide), List.map_cons, hes]

/-- The stack loop skips a visited top. -/
theorem dfsTraverseLoop_skip (g : Graph) (fuel : Nat) (c : Nat)
    (e : Option Edge) (rest : List (Nat × Option Edge))
    (data : List DFSData)
    (h : (data.getD (cdi g c) default).visited = true) :
    dfsTraverseLoop g (fuel + 1) ((c, e) :: rest) data
      = dfsTraverseLoop g fuel rest data := by
  rw [dfsTraverseLoop]
  simp only []
  rw [if_pos h]

/-- The stack loop visits an unvisited top: emit it, mark it, push its
unvisited neighbors. -/
theorem dfsTraverseLoop_mark (g : Graph) (fuel : Nat) (c : Nat)
    (e : Option Edge) (rest : List (Nat × Option Edge))
    (data : List DFSData) (pushed : List (Nat × Option Edge))
    (data2 : List DFSData)
    (h : (data.getD (cdi g c) default).visited = false)
    (hp : (edgesOf g c).reverse.foldl (dfsPush g c)
        ([], updL data (cdi g c) fun d => { d with visited := true })
      = (pushed, data2)) :
    dfsTraverseLoop g (fuel + 1) ((c, e) :: rest) data
      = ((c, e) :: (dfsTraverseLoop g fuel (pushed ++ rest) data2).1,
         (dfsTraverseLoop g fuel (pushed ++ rest) data2).2) := by
  rcases hl : dfsTraverseLoop g fuel (pushed ++ rest) data2 with ⟨out, data3⟩
  rw [dfsTraverseLoop]
  simp only []
  rw [if_neg (by rw [h]; decide), hp]
  simp only []
  rw [hl]

/-- The stack loop emits exactly the specification preorder. -/
theorem dfsTraverseLoop_eq_preorder (g : Graph) (hwf : GraphWF g) :
    ∀ fuel stack data,
      (∀ it ∈ stack, it.1 < g.vertices.length) →
      data.length = g.vertices.length →
      dfsPotential g stack (visView data) ≤ fuel →
      (dfsTraverseLoop g fuel stack data).1
        = (dfsPreorder g fuel stack (visView data)).1 := by
  intro fuel
  induction fuel with
  | zero =>
    intro stack data hb hlen hfuel
    cases stack with
    | nil => rfl
    | cons a rest =>
      exfalso
      unfold dfsPotential at hfuel
      simp only [List.length_cons] at hfuel
      omega
  | succ fuel ih =>
    intro stack data hb hlen hfuel
    cases stack with
    | nil => rfl
    | cons a rest =>
      rcases a with ⟨c, e⟩
      have hc : c < g.vertices.length := hb (c, e) (List.mem_cons_self _ _)
      have hcdi : cdi g c = c := hwf.hcdi c hc
      have hbrest : ∀ it ∈ rest, it.1 < g.vertices.length :=
        fun it hit => hb it (List.mem_cons_of_mem _ hit)
      by_cases hv : (data.getD (cdi g c) default).visited = true
      · have hvvc : (visView data).getD c false = true := by
          rw [visView_getD, ← hcdi]
          exact hv
        rw [dfsTraverseLoop_skip g fuel c e rest data hv,
          dfsPreorder_skip _ _ _ _ _ _ hvvc]
        refine ih rest data hbrest hlen ?_
        unfold dfsPotential at hfuel ⊢
        simp only [List.length_cons] at hfuel
        omega
      · have hv2 := bool_eq_false hv
        have hvvc : (visView data).getD c false = false := by
          rw [visView_getD, ← hcdi]
          exact hv2
        rcases hp : (edgesOf g c).reverse.foldl (dfsPush g c)
            ([], updL data (cdi g c) fun d => { d with visited := true })
          with ⟨pushed, data2⟩
        rw [dfsTraverseLoop_mark g fuel c e rest data pushed data2 hv2 hp,
          dfsPreorder_mark _ _ _ _ _ _ hvvc]
        show (c, e) :: (dfsTraverseLoop g fuel (pushed ++ rest) data2).1
          = (c, e) :: (dfsPreorder g fuel
              ((edgesOf g c).map (fun e2 => (e2.targetVertex, some e2))
                ++ rest) (setL (visView data) c true)).1
        refine congrArg _ ?_
        -- the fold characterization, transported through foldl_reverse
        obtain ⟨hf1, hf2, hf3⟩ := dfsPushFold g c (edgesOf g c)
          (updL data (cdi g c) fun d => { d with visited := true })
        rw [← List.foldl_reverse, hp] at hf1 hf2 hf3
        have hf1b : pushed = _ := hf1
        have hf2b : visView data2 = _ := hf2
        have hf3b : data2.length = _ := hf3
        -- the visited view after marking
        have hvv1 : visView (updL data (cdi g c)
            fun d => { d with visited := true })
            = setL (visView data) c true := by
          rw [visView_updL_visited, hcdi]
        have hvv2 : visView data2 = setL (visView data) c true := by
          rw [hf2b, hvv1]
        have hbedges : ∀ e2 ∈ edgesOf g c,
            e2.targetVertex < g.vertices.length := hwf.htarget c hc
        have hpushed : pushed
            = ((edgesOf g c).map (fun e2 => (e2.targetVertex, some e2))).filter
              (fun it => !((setL (visView data) c true).getD it.1 false)) := by
          rw [hf1b]
          refine pushed_as_filter g hwf (setL (visView data) c true)
            (edgesOf g c) hbedges _ ?_
          rw [hvv1]
        have hbch : ∀ it ∈ (edgesOf g c).map
            (fun e2 => (e2.targetVertex, some e2)),
            it.1 < g.vertices.length := by
          intro it hit
          rcases List.mem_map.1 hit with ⟨e2, he2, rfl⟩
          exact hbedges e2 he2
        have hbpushed : ∀ it ∈ pushed, it.1 < g.vertices.length := by
          intro it hit
          rw [hpushed] at hit
          exact hbch it (List.mem_filter.1 hit).1
        have hb1 : ∀ it ∈ pushed ++ rest, it.1 < g.vertices.length := by
          intro it hit
          rcases List.mem_append.1 hit with hit | hit
          · exact hbpushed it hit
          · exact hbrest it hit
        have hb2 : ∀ it ∈ (edgesOf g c).map
            (fun e2 => (e2.targetVertex, some e2)) ++ rest,
            it.1 < g.vertices.length := by
          intro it hit
          rcases List.mem_append.1 hit with hit | hit
          · exact hbch it hit
          · exact hbrest it hit
        have hlenvv : (visView data).length = g.vertices.length := by
          rw [visView_length, hlen]
        have hlenv1 : (setL (visView data) c true).length
            = g.vertices.length := by
          rw [setL_length, hlenvv]
        have hlen2 : data2.length = g.vertices.length := by
          rw [hf3b, updL_length, hlen]
        have hpotmark := dfsPotential_mark g rest (visView data) c e
          hlenvv hc hvvc
        have hple : pushed.length ≤ ((edgesOf g c).map
            (fun e2 => (e2.targetVertex, some e2))).length := by
          rw [hpushed]
          exact List.length_filter_le _ _
        have hpot2 : dfsPotential g ((edgesOf g c).map
            (fun e2 => (e2.targetVertex, some e2)) ++ rest)
            (setL (visView data) c true) ≤ fuel := by
          unfold dfsPotential at hfuel hpotmark ⊢
          simp only [List.length_cons, List.length_append, List.length_map]
            at hfuel hpotmark ⊢
          omega
        have hpot1 : dfsPotential g (pushed ++ rest)
            (setL (visView data) c true) ≤ fuel := by
          unfold dfsPotential at hpot2 ⊢
          simp only [List.length_append] at hpot2 ⊢
          omega
        have hpotIH : dfsPotential g (pushed ++ rest) (visView data2)
            ≤ fuel := by
          rw [hvv2]
          exact hpot1
        rw [ih (pushed ++ rest) data2 hb1 hlen2 hpotIH, hvv2]
        -- split both runs and absorb the visited filter
        have hpotch : dfsPotential g ((edgesOf g c).map
            (fun e2 => (e2.targetVertex, some e2)))
            (setL (visView data) c true) ≤ fuel := by
          unfold dfsPotential at hpot2 ⊢
          simp only [List.length_append] at hpot2
          omega
        have hdropP : ∀ it ∈ (edgesOf g c).map
            (fun e2 => (e2.targetVertex, some e2)),
            (fun it2 => !((setL (visView data) c true).getD it2.1 false)) it
              = false →
            (setL (visView data) c true).getD it.1 false = true := by
          intro it _ hpf
          exact bool_of_not_eq_false hpf
        have habs : dfsPreorder g fuel pushed (setL (visView data) c true)
            = dfsPreorder g fuel ((edgesOf g c).map
              (fun e2 => (e2.targetVertex, some e2)))
              (setL (visView data) c true) := by
          rw [hpushed]
          exact dfsPreorder_filter_absorb g hwf _ _ fuel _ hbch hlenv1
            hdropP hpotch
        rw [dfsPreorder_append g hwf fuel pushed rest _ hb1 hlenv1 hpot1,
          dfsPreorder_append g hwf fuel _ rest _ hb2 hlenv1 hpot2, habs]


/-- Output component of the visit equation. -/
theorem dfsPreorder_mark_fst (g : Graph) (fuel : Nat) (c : Nat)
    (e : Option Edge) (rest : List (Nat × Option Edge)) (vis : List Bool)
    (h : vis.getD c false = false) :
    (dfsPreorder g (fuel + 1) ((c, e) :: rest) vis).1
      = (c, e) :: (dfsPreorder g fuel
          ((edgesOf g c).map (fun e2 => (e2.targetVertex, some e2)) ++ rest)
          (setL vis c true)).1 := by
  rw [dfsPreorder_mark g fuel c e rest vis h]

/-- Flag component of the visit equation. -/
theorem dfsPreorder_mark_snd (g : Graph) (fuel : Nat) (c : Nat)
    (e : Option Edge) (rest : List (Nat × Option Edge)) (vis : List Bool)
    (h : vis.getD c false = false) :
    (dfsPreorder g (fuel + 1) ((c, e) :: rest) vis).2
      = (dfsPreorder g fuel
          ((edgesOf g c).map (fun e2 => (e2.targetVertex, some e2)) ++ rest)
          (setL vis c true)).2 := by
  rw [dfsPreorder_mark g fuel c e rest vis h]

/-- The preorder-run properties, empty-agenda case. -/
theorem dfsPreorder_props_nil (g : Graph) (fuel : Nat) (vis : List Bool) :
    (∀ i : Nat, ((dfsPreorder g fuel [] vis).2).getD i false = true ↔
      (vis.getD i false = true ∨
        i ∈ ((dfsPreorder g fuel [] vis).1).map Prod.fst))
    ∧ (((dfsPreorder g fuel [] vis).1).map Prod.fst).Nodup
    ∧ (∀ i ∈ ((dfsPreorder g fuel [] vis).1).map Prod.fst,
        vis.getD i false = false)
    ∧ (∀ it ∈ ([] : List (Nat × Option Edge)),
        ((dfsPreorder g fuel [] vis).2).getD it.1 false = true)
    ∧ (∀ v ∈ ((dfsPreorder g fuel [] vis).1).map Prod.fst,
        ∃ w ∈ ([] : List (Nat × Option Edge)).map Prod.fst, Reaches g w v)
    ∧ (∀ v ∈ ((dfsPreorder g fuel [] vis).1).map Prod.fst,
        ∀ e2 ∈ edgesOf g v,
          ((dfsPreorder g fuel [] vis).2).getD e2.targetVertex false
            = true) := by
  rw [dfsPreorder_nil]
  refine ⟨?_, ?_, ?_, ?_, ?_, ?_⟩
  · intro i; simp
  · simp
  · intro i hi; simp at hi
  · intro it hit; simp at hit
  · intro v hv; simp at hv
  · intro v hv; simp at hv

/-- The bundle of invariants of a sufficiently fueled preorder run: the
final flags are the initial ones plus exactly the emitted vertices; no
vertex is emitted twice or emitted already-visited; every agenda vertex
ends visited; every emitted vertex is reachable from some agenda vertex;
and the out-neighbors of emitted vertices all end visited. -/
theorem dfsPreorder_props (g : Graph) (hwf : GraphWF g) :
    ∀ fuel agenda vis,
      (∀ it ∈ agenda, it.1 < g.vertices.length) →
      vis.length = g.vertices.length →
      dfsPotential g agenda vis ≤ fuel →
      (∀ i : Nat, ((dfsPreorder g fuel agenda vis).2).getD i false = true ↔
        (vis.getD i false = true ∨
          i ∈ ((dfsPreorder g fuel agenda vis).1).map Prod.fst))
      ∧ (((dfsPreorder g fuel agenda vis).1).map Prod.fst).Nodup
      ∧ (∀ i ∈ ((dfsPreorder g fuel agenda vis).1).map Prod.fst,
          vis.getD i false = false)
      ∧ (∀ it ∈ agenda,
          ((dfsPreorder g fuel agenda vis).2).getD it.1 false = true)
      ∧ (∀ v ∈ ((dfsPreorder g fuel agenda vis).1).map Prod.fst,
          ∃ w ∈ agenda.map Prod.fst, Reaches g w v)
      ∧ (∀ v ∈ ((dfsPreorder g fuel agenda vis).1).map Prod.fst,
          ∀ e2 ∈ edgesOf g v,
            ((dfsPreorder g fuel agenda vis).2).getD e2.targetVertex false
              = true) := by
  intro fuel
  induction fuel with
  | zero =>
    intro agenda vis hb hlen hfuel
    cases agenda with
    | nil => exact dfsPreorder_props_nil g 0 vis
    | cons a rest =>
      exfalso
      unfold dfsPotential at hfuel
      simp only [List.length_cons] at hfuel
      omega
  | succ fuel ih =>
    intro agenda vis hb hlen hfuel
    cases agenda with
    | nil => exact dfsPreorder_props_nil g (fuel + 1) vis
    | cons a rest =>
      rcases a with ⟨c, e⟩
      have hc : c < g.vertices.length := hb (c, e) (List.mem_cons_self _ _)
      have hcLT : c < vis.length := by omega
      have hbrest : ∀ it ∈ rest, it.1 < g.vertices.length :=
        fun it hit => hb it (List.mem_cons_of_mem _ hit)
      by_cases hv : vis.getD c false = true
      · rw [dfsPreorder_skip _ _ _ _ _ _ hv]
        have hfuelr : dfsPotential g rest vis ≤ fuel := by
          unfold dfsPotential at hfuel ⊢
          simp only [List.length_cons] at hfuel
          omega
        obtain ⟨ih1, ih2, ih3, ih4, ih5, ih6⟩ := ih rest vis hbrest hlen
          hfuelr
        refine ⟨ih1, ih2, ih3, ?_, ?_, ih6⟩
        · intro it hit
          rcases List.mem_cons.1 hit with rfl | hit
          · exact (ih1 _).2 (Or.inl hv)
          · exact ih4 it hit
        · intro v hvm
          obtain ⟨w, hw, hr⟩ := ih5 v hvm
          refine ⟨w, ?_, hr⟩
          simp only [List.map_cons, List.mem_cons]
          exact Or.inr hw
      · have hv2 := bool_eq_false hv
        rw [dfsPreorder_mark_fst _ _ _ _ _ _ hv2,
          dfsPreorder_mark_snd _ _ _ _ _ _ hv2]
        have hbch : ∀ it ∈ (edgesOf g c).map
            (fun e2 => (e2.targetVertex, some e2)) ++ rest,
            it.1 < g.vertices.length := by
          intro it hit
          rcases List.mem_append.1 hit with hit | hit
          · rcases List.mem_map.1 hit with ⟨e2, he2, rfl⟩
            exact hwf.htarget c hc e2 he2
          · exact hbrest it hit
        have hlen1 : (setL vis c true).length = g.vertices.length := by
          rw [setL_length]; exact hlen
        have hpotmark := dfsPotential_mark g rest vis c e hlen hc hv2
        have hfuel1 : dfsPotential g
            ((edgesOf g c).map (fun e2 => (e2.targetVertex, some e2)) ++ rest)
            (setL vis c true) ≤ fuel := by omega
        obtain ⟨ih1, ih2, ih3, ih4, ih5, ih6⟩ := ih _ _ hbch hlen1 hfuel1
        refine ⟨?_, ?_, ?_, ?_, ?_, ?_⟩
        · intro i
          constructor
          · intro h
            rcases (ih1 i).1 h with hl | hm
            · by_cases hic : c = i
              · subst hic
                right
                simp
              · rw [getD_setL_ne _ _ _ hic] at hl
                exact Or.inl hl
            · right
              simp only [List.map_cons, List.mem_cons]
              exact Or.inr hm
          · intro h
            rcases h with hl | hm
            · exact (ih1 i).2 (Or.inl (getD_setL_true_mono vis c i hl))
            · simp only [List.map_cons, List.mem_cons] at hm
              rcases hm with rfl | hm
              · exact (ih1 _).2 (Or.inl (getD_setL_self _ _ _ _ hcLT))
              · exact (ih1 i).2 (Or.inr hm)
        · simp only [List.map_cons]
          refine List.nodup_cons.2 ⟨?_, ih2⟩
          intro hcm
          have h3 := ih3 _ hcm
          rw [getD_setL_self _ _ _ _ hcLT] at h3
          exact Bool.noConfusion h3
        · intro i him
          simp only [List.map_cons, List.mem_cons] at him
          rcases him with rfl | him
          · exact hv2
          · have h3 := ih3 i him
            by_cases hic : c = i
            · subst hic
              rw [getD_setL_self _ _ _ _ hcLT] at h3
              exact Bool.noConfusion h3
            · rw [getD_setL_ne _ _ _ hic] at h3
              exact h3
        · intro it hit
          rcases List.mem_cons.1 hit with rfl | hit
          · exact (ih1 _).2 (Or.inl (getD_setL_self _ _ _ _ hcLT))
          · exact ih4 it (List.mem_append_right _ hit)
        · intro v hvm
          simp only [List.map_cons, List.mem_cons] at hvm
          rcases hvm with rfl | hvm
          · refine ⟨_, ?_, Relation.ReflTransGen.refl⟩
            simp
          · obtain ⟨w, hw, hr⟩ := ih5 v hvm
            rw [List.map_append] at hw
            rcases List.mem_append.1 hw with hwch | hwr
            · obtain ⟨it, hit, rfl⟩ := List.mem_map.1 hwch
              obtain ⟨e2, he2, rfl⟩ := List.mem_map.1 hit
              refine ⟨c, by simp, ?_⟩
              exact Relation.ReflTransGen.head ⟨e2, he2, rfl⟩ hr
            · refine ⟨w, ?_, hr⟩
              simp only [List.map_cons, List.mem_cons]
              exact Or.inr hwr
        · intro v hvm e2 he2
          simp only [List.map_cons, List.mem_cons] at hvm
          rcases hvm with rfl | hvm
          · exact ih4 (e2.targetVertex, some e2)
              (List.mem_append_left _ (List.mem_map_of_mem _ he2))
          · exact ih6 v hvm e2 he2


/-- The all-`false` flag list reads `false` at every index. -/
theorem getD_replicate_false (n : Nat) : ∀ i : Nat,
    (List.replicate n false).getD i false = false := by
  induction n with
  | zero => intro i; cases i <;> rfl
  | succ n ih =>
    intro i
    cases i with
    | zero => rfl
    | succ j => exact ih j

/-- Initially every vertex is unvisited. -/
theorem unvisB_replicate (n : Nat) :
    unvisB n (List.replicate n false) = Finset.range n := by
  unfold unvisB
  ext i
  simp only [Finset.mem_filter, Finset.mem_range]
  constructor
  · exact fun h => h.1
  · exact fun h => ⟨h, getD_replicate_false n i⟩

/-- C8: `DFS.TraverseFrom(start, cb)` does nothing when `start` is not a
known vertex identifier; otherwise it invokes the callback exactly once for
every vertex reachable from the start along stored edges — the start first,
with an absent incoming edge — and the visit sequence is exactly the
deterministic depth-first preorder induced by each vertex's stored edge
order (`dfsPreorder`). -/
theorem C8_traverse_from (g : Graph) (hwf : GraphWF g) (start : Int) :
    (getVertexById g start = none → traverseFrom g start = [])
    ∧ (∀ si, getVertexById g start = some si →
        traverseFrom g start
          = (dfsPreorder g (totalEdges g + 1) [(si, none)]
              (List.replicate g.vertices.length false)).1
        ∧ ((traverseFrom g start).map Prod.fst).Nodup
        ∧ (∀ v, v ∈ (traverseFrom g start).map Prod.fst ↔ Reaches g si v)
        ∧ (traverseFrom g start).head? = some (si, none)) := by
  constructor
  · intro hnone
    unfold traverseFrom
    rw [hnone]
  · intro si hsome
    have hsi : si < g.vertices.length :=
      hwf.hmap (start, si) (lookupIdx_mem _ _ _ hsome)
    have hb0 : ∀ it ∈ [((si : Nat), (none : Option Edge))],
        it.1 < g.vertices.length := by
      intro it hit
      rw [List.mem_singleton] at hit
      subst hit
      exact hsi
    have hlen0 : (List.replicate g.vertices.length
        ({ visited := false, parent := none, visiting := false } :
          DFSData)).length = g.vertices.length := List.length_replicate _ _
    have hlenf : (List.replicate g.vertices.length false).length
        = g.vertices.length := List.length_replicate _ _
    have hpot0 : dfsPotential g [(si, none)]
        (List.replicate g.vertices.length false) ≤ totalEdges g + 1 := by
      unfold dfsPotential totalEdges
      rw [unvisB_replicate]
      simp only [List.length_singleton]
      omega
    have heq : traverseFrom g start
        = (dfsPreorder g (totalEdges g + 1) [(si, none)]
            (List.replicate g.vertices.length false)).1 := by
      unfold traverseFrom
      rw [hsome]
      simp only []
      rw [dfsTraverseLoop_eq_preorder g hwf (totalEdges g + 1) [(si, none)]
        (List.replicate g.vertices.length
          { visited := false, parent := none, visiting := false })
        hb0 hlen0 (by rw [visView_replicate]; exact hpot0)]
      rw [visView_replicate]
    obtain ⟨p1, p2, p3, p4, p5, p6⟩ := dfsPreorder_props g hwf
      (totalEdges g + 1) [(si, none)]
      (List.replicate g.vertices.length false) hb0 hlenf hpot0
    refine ⟨heq, ?_, ?_, ?_⟩
    · rw [heq]
      exact p2
    · intro v
      rw [heq]
      constructor
      · intro hv
        obtain ⟨w, hw, hr⟩ := p5 v hv
        have hws : w = si := by simpa using hw
        subst hws
        exact hr
      · intro hr
        induction hr with
        | refl =>
          have hfin := p4 (si, none) (List.mem_singleton.2 rfl)
          rcases (p1 si).1 hfin with hl | hm
          · rw [getD_replicate_false] at hl
            exact Bool.noConfusion hl
          · exact hm
        | tail h1 h2 ihr =>
          obtain ⟨e2, he2, rfl⟩ := h2
          have hfin := p6 _ ihr e2 he2
          rcases (p1 _).1 hfin with hl | hm
          · rw [getD_replicate_false] at hl
            exact Bool.noConfusion hl
          · exact hm
    · rw [heq, dfsPreorder_mark_fst g (totalEdges g) si none []
        (List.replicate g.vertices.length false)
        (getD_replicate_false _ _)]
      rfl

/-- Closed witness for C8 at the amplifier demo graph, start identifier 1
(stored at index 0). -/
theorem C8_witness :
    traverseFrom ampDemoGraph 1
      = (dfsPreorder ampDemoGraph (totalEdges ampDemoGraph + 1) [(0, none)]
          (List.replicate ampDemoGraph.vertices.length false)).1
    ∧ ((traverseFrom ampDemoGraph 1).map Prod.fst).Nodup
    ∧ (traverseFrom ampDemoGraph 1).head? = some (0, none) :=
  have h := (C8_traverse_from ampDemoGraph ⟨by decide, by decide, by decide⟩
    1).2 0 (by decide)
  ⟨h.1, h.2.1, h.2.2.2⟩

end GoGraph
